import Mathlib

/-!
Shallow embedding of `nbtutils` (src/nbtutils/__init__.py): a converter
between textual NBT literals and an in-memory tag tree, plus a printer
(`nbt2str`) and a flattener to native values (`nbt2py`).

The source builds its grammar from pyparsing combinators.  The embedding
mirrors those combinator semantics:
* every token-level matcher first skips whitespace (pyparsing default
  whitespace: space, tab, newline);
* `pp.Or` (used for the numeric and string alternations) picks the
  alternative with the longest overall match, earliest listed on ties;
* `STR_TAG`'s `|` chain is `MatchFirst`: the first matching alternative
  wins and is committed to;
* `ZeroOrMore(sep + expr)` stops (before the separator) when an iteration
  fails with an ordinary parse failure;
* an `IndexError` raised by a parse action (`t[0]` in `make_tag_list` on
  an empty match) is caught by pyparsing and converted to an ordinary
  `ParseException`, so the enclosing alternation backtracks over it; it is
  therefore modelled as a plain `parseFail`;
* a host exception pyparsing does not catch (`ValueError` from
  `bytearray` on an out-of-range element) aborts the whole parse; this is
  modelled by the `hostErr` error constructor, which propagates where a
  `parseFail` would be caught by backtracking.

The tag family (`nbt.nbt` classes) is an external dependency of the
source; its shape (12 variants, `.value`, `.name`, `.id`, list/compound
children) is modelled per the spec's data model.  Python float payloads
are modelled by `PyFloat`: an exact rational for a finite double, or an
IEEE infinity, which `float()` yields when a literal's magnitude reaches
the double rounding threshold (`float("1e400")` is `inf`).  `str()` on a
finite float is modelled as exact decimal rendering: Python may choose an
exponent form, but both renderings re-parse to the same value, so the
abstraction is faithful for round-trip statements; `str()` on an
infinity is `inf`/`-inf`, rendered exactly since that output does not
re-parse as a number.  Recursion over the input is made structural with a
fuel argument; `str2nbt` supplies fuel ample for its input length.
-/

namespace Nbtutils

set_option exponentiation.threshold 1100

abbrev Chars := List Char

def lbrace : Char := Char.ofNat 123
def rbrace : Char := Char.ofNat 125
def dquote : Char := Char.ofNat 34

/-- pyparsing skips `" \t\n"` (its default whitespace characters). -/
def isWsC (c : Char) : Bool := c = ' ' || c = '\t' || c = '\n'

def isDigitC (c : Char) : Bool := 48 ≤ c.toNat && c.toNat ≤ 57

/-- Models `pp.alphanums`: ASCII letters and digits. -/
def isAlnumC (c : Char) : Bool :=
  isDigitC c || (97 ≤ c.toNat && c.toNat ≤ 122) || (65 ≤ c.toNat && c.toNat ≤ 90)

def skipWs : Chars → Chars
  | [] => []
  | c :: cs => if isWsC c then skipWs cs else c :: cs

def takeWhileCh (p : Char → Bool) : Chars → (List Char × Chars)
  | [] => ([], [])
  | c :: cs =>
    if p c then
      let r := takeWhileCh p cs
      (c :: r.1, r.2)
    else ([], c :: cs)

/-- Numeric value of a digit string (as matched by `\d+`). -/
def digitsVal (ds : List Char) : Nat := ds.foldl (fun a c => 10 * a + (c.toNat - 48)) 0

/-- Decimal digits of `n`, most significant first (fueled to stay
structurally recursive; `natDigits` supplies ample fuel). -/
def natDigitsAux : Nat → Nat → List Char
  | 0, _ => []
  | fuel + 1, n => if n = 0 then [] else natDigitsAux fuel (n / 10) ++ [Char.ofNat (48 + n % 10)]

def natDigits (n : Nat) : List Char := if n = 0 then ['0'] else natDigitsAux n n

/-- Python `str` on an `int`. -/
def pyIntChars (n : Int) : List Char :=
  if n < 0 then '-' :: natDigits n.natAbs else natDigits n.natAbs

/-- Multiplicity of the prime `p` in `n` (0 when `n = 0`), fueled. -/
def fexpAux : Nat → Nat → Nat → Nat
  | 0, _, _ => 0
  | fuel + 1, p, n =>
    if 2 ≤ p ∧ n ≠ 0 ∧ n % p = 0 then 1 + fexpAux fuel p (n / p) else 0

def fexp (p n : Nat) : Nat := fexpAux n p n

def padZeros (k : Nat) (ds : List Char) : List Char :=
  List.replicate (k - ds.length) '0' ++ ds

/-- Python `str` on a float, with the float payload modelled as an exact
rational: the exact decimal expansion `[-]digits.digits` (denominators of
parse-produced values divide a power of ten). -/
def pyFloatChars (q : Rat) : List Char :=
  let k := max (fexp 2 q.den) (fexp 5 q.den)
  let m := q.num.natAbs * 10 ^ k / q.den
  let sign : List Char := if q.num < 0 then ['-'] else []
  if k = 0 then sign ++ natDigits m ++ ['.', '0']
  else
    let ds := padZeros (k + 1) (natDigits m)
    sign ++ ds.take (ds.length - k) ++ '.' :: ds.drop (ds.length - k)

/-- A Python float payload: the exact rational value of a finite double,
or an IEEE infinity, which `float()` yields on overflow. -/
inductive PyFloat
  | finite (q : Rat)
  | inf
  | ninf

/-- Smallest magnitude an exact value must reach for IEEE-754
round-to-nearest-even to overflow a double to infinity: the midpoint
`2 ^ 1024 - 2 ^ 970` just above `DBL_MAX`; it is an integer. -/
def dblOvf : Int := ((2 ^ 1024 - 2 ^ 970 : Nat) : Int)

/-- The exact value fits a finite double: strictly below the overflow
threshold in magnitude. -/
def FiniteDbl (q : Rat) : Prop := -(dblOvf : Rat) < q ∧ q < (dblOvf : Rat)

/-- Python `str` on a float payload: exact decimal rendering of a finite
value (Python may pick an exponent form instead, but both re-parse to the
same value, so this abstraction is faithful to round-trip behaviour), and
`inf` / `-inf` for the infinities, as `str` prints them. -/
def pyFloatStr : PyFloat → List Char
  | .finite q => pyFloatChars q
  | .inf => ['i', 'n', 'f']
  | .ninf => ['-', 'i', 'n', 'f']

/-- The tag-tree shape of the external `nbt.nbt` tag family, per the spec's
data model.  A Compound holds (name, value) pairs: the source's in-place
`v.name = k.value` assignment is modelled as pair construction (the spec's
§9 suggested model for the name attachment). -/
inductive Tag
  | TAG_Byte (value : Int)
  | TAG_Short (value : Int)
  | TAG_Int (value : Int)
  | TAG_Long (value : Int)
  | TAG_Float (value : PyFloat)
  | TAG_Double (value : PyFloat)
  | TAG_String (value : String)
  | TAG_Byte_Array (value : List Int)
  | TAG_Int_Array (value : List Int)
  | TAG_Long_Array (value : List Int)
  | TAG_List (tagID : Nat) (tags : List Tag)
  | TAG_Compound (tags : List (String × Tag))

/-- The numeric tag ids of the binary NBT format (`TAG.id` class fields of
the nbt library); `TAG_List(type=...)` records `type.id` here. -/
def Tag.id : Tag → Nat
  | .TAG_Byte _ => 1
  | .TAG_Short _ => 2
  | .TAG_Int _ => 3
  | .TAG_Long _ => 4
  | .TAG_Float _ => 5
  | .TAG_Double _ => 6
  | .TAG_Byte_Array _ => 7
  | .TAG_String _ => 8
  | .TAG_List _ _ => 9
  | .TAG_Compound _ => 10
  | .TAG_Int_Array _ => 11
  | .TAG_Long_Array _ => 12

/-- Models `.value` of a key tag (always a `TAG_String` where used). -/
def tagStrValue : Tag → String
  | .TAG_String s => s
  | _ => ""

/-- Parse outcome: `parseFail` is a pyparsing `ParseException` (a ParseError
to the caller; an `IndexError` out of a parse action is converted to one
by pyparsing), `hostErr` a host exception pyparsing does not catch — the
`ValueError` raised by `bytearray` on an out-of-range element. -/
inductive PErr
  | parseFail
  | hostErr (msg : String)
deriving DecidableEq, Repr

/-- Numeric suffix of a `matchNumber` pattern: absent, required
(`suffix='b'`), or optional (`suffix='d?'`); matching is IGNORECASE, the
stored char is lowercase. -/
inductive Suf
  | noSuf
  | reqSuf (c : Char)
  | optSuf (c : Char)

def matchSuf : Suf → Chars → Option Chars
  | .noSuf, s => some s
  | .reqSuf c, x :: xs => if x.toLower = c then some xs else none
  | .reqSuf _, [] => none
  | .optSuf c, x :: xs => if x.toLower = c then some xs else some (x :: xs)
  | .optSuf _, [] => some []

/-- Models `[+-]?` leading sign; returns (isNegative, rest). -/
def scanSign : Chars → (Bool × Chars)
  | c :: cs => if c = '-' then (true, cs) else if c = '+' then (false, cs) else (false, c :: cs)
  | [] => (false, [])

/-- Models `matchNumber(suffix=...)` with `is_float=False`: regex `[-+]?\d+` plus
the suffix, value via `int()`. -/
def matchIntNum (suf : Suf) (s : Chars) : Option (Int × Chars) :=
  let s0 := skipWs s
  let p := scanSign s0
  let d := takeWhileCh isDigitC p.2
  if d.1.isEmpty then none
  else
    match matchSuf suf d.2 with
    | none => none
    | some r2 => some ((if p.1 then -(digitsVal d.1 : Int) else (digitsVal d.1 : Int)), r2)

/-- Models `(?:\.\d*)?`: optional fraction part; returns (value, digit count, rest). -/
def scanFrac : Chars → (Nat × Nat × Chars)
  | [] => (0, 0, [])
  | c :: cs =>
    if c = '.' then
      let d := takeWhileCh isDigitC cs
      (digitsVal d.1, d.1.length, d.2)
    else (0, 0, c :: cs)

/-- Models `(?:e[+-]?\d+)?` (IGNORECASE): optional exponent; unmatched when no
digit follows, as the regex engine backtracks out of the optional group. -/
def scanExp : Chars → (Int × Chars)
  | c :: cs =>
    if c = 'e' ∨ c = 'E' then
      let p := scanSign cs
      let d := takeWhileCh isDigitC p.2
      if d.1.isEmpty then (0, c :: cs)
      else ((if p.1 then -(digitsVal d.1 : Int) else (digitsVal d.1 : Int)), d.2)
    else (0, c :: cs)
  | [] => (0, [])

/-- Exact value of a decimal float literal as a rational (what an
unbounded `float()` would store). -/
def floatRat (neg : Bool) (ipart fval flen : Nat) (e : Int) : Rat :=
  let mant : Int := (ipart * 10 ^ flen + fval : Nat)
  let mant := if neg then -mant else mant
  if 0 ≤ e then mkRat (mant * 10 ^ e.toNat) (10 ^ flen)
  else mkRat mant (10 ^ (flen + e.natAbs))

/-- Numerator and (power-of-ten) denominator of the exact value of a
decimal float literal, before normalisation. -/
def floatND (neg : Bool) (ipart fval flen : Nat) (e : Int) : Int × Nat :=
  let mant : Int := (ipart * 10 ^ flen + fval : Nat)
  let mant := if neg then -mant else mant
  if 0 ≤ e then (mant * ((10 ^ e.toNat : Nat) : Int), 10 ^ flen)
  else (mant, 10 ^ (flen + e.natAbs))

/-- Models Python `float()` on the matched text: the exact rational value
of the literal, except that a magnitude reaching the IEEE overflow
threshold yields an infinity (`float("1e400")` is `inf`).  Finite values
are kept exact (see the module comment). -/
def floatVal (neg : Bool) (ipart fval flen : Nat) (e : Int) : PyFloat :=
  let nd := floatND neg ipart fval flen e
  if dblOvf * nd.2 ≤ nd.1 then .inf
  else if nd.1 ≤ -(dblOvf * nd.2) then .ninf
  else .finite (mkRat nd.1 nd.2)

/-- Models `matchNumber(suffix=..., is_float=True)`: regex
`[+-]?\d+(?:\.\d*)?(?:e[+-]?\d+)?` plus the suffix, value via `float()`. -/
def matchFloatNum (suf : Suf) (s : Chars) : Option (PyFloat × Chars) :=
  let s0 := skipWs s
  let p := scanSign s0
  let d := takeWhileCh isDigitC p.2
  if d.1.isEmpty then none
  else
    let fr := scanFrac d.2
    let ex := scanExp fr.2.2
    match matchSuf suf ex.2 with
    | none => none
    | some r3 => some (floatVal p.1 (digitsVal d.1) fr.1 fr.2.1 ex.1, r3)

/-- Models `pp.Or` choice step: keep the earlier result unless the later one
consumed strictly more. -/
def pickLonger {α : Type} (a b : Option (α × Chars)) : Option (α × Chars) :=
  match a, b with
  | some x, some y => if y.2.length < x.2.length then some y else some x
  | some x, none => some x
  | none, r => r

/-- Models `STR_Number = pp.Or([STR_Byte, STR_Short, STR_Int, STR_Long, STR_Float,
STR_Double])` with their tag-building parse actions. -/
def STR_Number (s : Chars) : Option (Tag × Chars) :=
  let byteR := (matchIntNum (.reqSuf 'b') s).map (fun r => (Tag.TAG_Byte r.1, r.2))
  let shortR := (matchIntNum (.reqSuf 's') s).map (fun r => (Tag.TAG_Short r.1, r.2))
  let intR := (matchIntNum .noSuf s).map (fun r => (Tag.TAG_Int r.1, r.2))
  let longR := (matchIntNum (.reqSuf 'l') s).map (fun r => (Tag.TAG_Long r.1, r.2))
  let floatR := (matchFloatNum (.reqSuf 'f') s).map (fun r => (Tag.TAG_Float r.1, r.2))
  let doubleR := (matchFloatNum (.optSuf 'd') s).map (fun r => (Tag.TAG_Double r.1, r.2))
  pickLonger (pickLonger (pickLonger (pickLonger (pickLonger byteR shortR) intR) longR) floatR)
    doubleR

/-- Models `pp.Word(pp.alphanums)`. -/
def wordAlnums (s : Chars) : Option (String × Chars) :=
  let d := takeWhileCh isAlnumC (skipWs s)
  if d.1.isEmpty then none else some (⟨d.1⟩, d.2)

/-- Characters admitted inside a single-line quoted string. -/
def notQuoteEnd (c : Char) : Bool := !(c = dquote || c = '\n' || c = '\r')

/-- Models `pp.QuotedString('"')`: no escapes, single line, quotes stripped. -/
def quotedString (s : Chars) : Option (String × Chars) :=
  match skipWs s with
  | c :: cs =>
    if c = dquote then
      let d := takeWhileCh notQuoteEnd cs
      match d.2 with
      | c2 :: r2 => if c2 = dquote then some ((⟨d.1⟩ : String), r2) else none
      | [] => none
    else none
  | [] => none

/-- Models `STR_String = pp.Word(pp.alphanums) ^ pp.QuotedString('"')` with its
`TAG_String` parse action. -/
def STR_String (s : Chars) : Option (Tag × Chars) :=
  (pickLonger (wordAlnums s) (quotedString s)).map (fun r => (Tag.TAG_String r.1, r.2))

/-- Models `pp.Literal(c)` (single-character literals only occur), suppressed. -/
def litCh (c : Char) (s : Chars) : Option Chars :=
  match skipWs s with
  | x :: xs => if x = c then some xs else none
  | [] => none

/-- Models `ZeroOrMore(Suppress(',') + matchNumber(suffix=tc+'?'))` tail of
`pp.delimitedList`; a failing iteration stops before its separator. -/
def numElemsMore (sufc : Char) : Nat → Chars → (List Int × Chars)
  | 0, s => ([], s)
  | fuel + 1, s =>
    match litCh ',' s with
    | none => ([], s)
    | some s1 =>
      match matchIntNum (.optSuf sufc) s1 with
      | none => ([], s)
      | some (v, s2) =>
        let r := numElemsMore sufc fuel s2
        (v :: r.1, r.2)

/-- Models `pp.delimitedList(matchNumber(suffix=typecode+'?'))`. -/
def numElems (sufc : Char) (fuel : Nat) (s : Chars) : Option (List Int × Chars) :=
  match matchIntNum (.optSuf sufc) s with
  | none => none
  | some (v, s1) =>
    let r := numElemsMore sufc fuel s1
    some (v :: r.1, r.2)

/-- Models `matchNumList(typecode)`:
`'[' typecode ';' delimitedList(number) ']'` with the `tuple` action. -/
def matchNumList (tc : Char) (fuel : Nat) (s : Chars) : Option (List Int × Chars) :=
  match litCh '[' s with
  | none => none
  | some s1 =>
    match litCh tc s1 with
    | none => none
    | some s2 =>
      match litCh ';' s2 with
      | none => none
      | some s3 =>
        match numElems tc.toLower fuel s3 with
        | none => none
        | some (vs, s4) =>
          match litCh ']' s4 with
          | none => none
          | some s5 => some (vs, s5)

/-- Models `bytearray(vals)`: accepts only 0..255, else `ValueError`. -/
def bytearrayOf (vs : List Int) : Except PErr (List Int) :=
  if vs.all (fun v => 0 ≤ v && v < 256) then .ok vs else .error (.hostErr "ValueError")

/-- Models `make_tag_array` composed with each array's `addParseAction`:
`TAG_Byte_Array` stores a `bytearray`, the other two plain lists. -/
def make_tag_array (tc : Char) (vs : List Int) : Except PErr Tag :=
  if tc = 'B' then
    match bytearrayOf vs with
    | .ok bs => .ok (.TAG_Byte_Array bs)
    | .error e => .error e
  else if tc = 'I' then .ok (.TAG_Int_Array vs)
  else .ok (.TAG_Long_Array vs)

/-- The `STR_Byte_Array` / `STR_Int_Array` / `STR_Long_Array` alternatives. -/
def STR_NumArray (tc : Char) (fuel : Nat) (s : Chars) : Except PErr (Tag × Chars) :=
  match matchNumList tc fuel s with
  | none => .error .parseFail
  | some (vs, r) =>
    match make_tag_array tc vs with
    | .ok t => .ok (t, r)
    | .error e => .error e

/-- Models `make_tag_list`: `TAG_List(type=vals[0])` with the parsed tags; on an
empty match the action's `t[0]` raises `IndexError`, which pyparsing
catches and converts to an ordinary `ParseException` (a `parseFail`
here), so the empty list literal is rejected, not crashed on. -/
def make_tag_list (vals : List Tag) : Except PErr Tag :=
  match vals with
  | [] => .error .parseFail
  | t :: ts => .ok (.TAG_List t.id (t :: ts))

/-- Models `make_tag_compound`: attach each key's string value as the value tag's
name, preserving entry order (the parsed dict keys are fresh `TAG_String`
objects, so `dict()` keeps every pair in insertion order). -/
def make_tag_compound (pairs : List (Tag × Tag)) : Tag :=
  .TAG_Compound (pairs.map (fun kv => (tagStrValue kv.1, kv.2)))

/-- Models `MatchFirst` step: try the next alternative only on an ordinary parse
failure (which includes a parse action's converted `IndexError`); an
uncaught host exception (`ValueError`) propagates. -/
def orElseR (a : Except PErr (Tag × Chars)) (b : Unit → Except PErr (Tag × Chars)) :
    Except PErr (Tag × Chars) :=
  match a with
  | .error .parseFail => b ()
  | r => r

mutual

/-- Models `STR_TAG << (STR_Number | STR_String | STR_Byte_Array | STR_Int_Array |
STR_Long_Array | STR_List | STR_Compound)` — `MatchFirst` alternation. -/
def STR_TAG : Nat → Chars → Except PErr (Tag × Chars)
  | 0, _ => .error .parseFail
  | fuel + 1, s =>
    match STR_Number s with
    | some (t, r) => .ok (t, r)
    | none =>
      match STR_String s with
      | some (t, r) => .ok (t, r)
      | none =>
        orElseR (STR_NumArray 'B' fuel s) (fun _ =>
          orElseR (STR_NumArray 'I' fuel s) (fun _ =>
            orElseR (STR_NumArray 'L' fuel s) (fun _ =>
              orElseR (STR_List fuel s) (fun _ => STR_Compound fuel s))))

/-- Models `STR_List = delimited(delimitedList(STR_TAG), '[', ']')` with
`make_tag_list(t[0])` as parse action (the `Optional` of `delimited`
permits an empty body, on which the action raises an `IndexError` that
pyparsing converts to a `ParseException`). -/
def STR_List : Nat → Chars → Except PErr (Tag × Chars)
  | 0, _ => .error .parseFail
  | fuel + 1, s =>
    match litCh '[' s with
    | none => .error .parseFail
    | some s1 =>
      match tagElems fuel s1 with
      | .ok (vals, s2) =>
        match litCh ']' s2 with
        | none => .error .parseFail
        | some s3 =>
          match make_tag_list vals with
          | .ok t => .ok (t, s3)
          | .error e => .error e
      | .error .parseFail =>
        match litCh ']' s1 with
        | none => .error .parseFail
        | some s3 =>
          match make_tag_list [] with
          | .ok t => .ok (t, s3)
          | .error e => .error e
      | .error e => .error e

/-- Models `pp.delimitedList(STR_TAG)` (at least one element). -/
def tagElems : Nat → Chars → Except PErr (List Tag × Chars)
  | 0, _ => .error .parseFail
  | fuel + 1, s =>
    match STR_TAG fuel s with
    | .error e => .error e
    | .ok (t, s1) =>
      match tagElemsMore fuel s1 with
      | .ok (ts, s2) => .ok (t :: ts, s2)
      | .error e => .error e

/-- Models `ZeroOrMore(Suppress(',') + STR_TAG)`. -/
def tagElemsMore : Nat → Chars → Except PErr (List Tag × Chars)
  | 0, _ => .error .parseFail
  | fuel + 1, s =>
    match litCh ',' s with
    | none => .ok ([], s)
    | some s1 =>
      match STR_TAG fuel s1 with
      | .error .parseFail => .ok ([], s)
      | .error e => .error e
      | .ok (t, s2) =>
        match tagElemsMore fuel s2 with
        | .ok (ts, s3) => .ok (t :: ts, s3)
        | .error e => .error e

/-- A `matchDict` entry: `STR_String ':' STR_TAG`, kept as a (key, value)
tag pair. -/
def kvEntry : Nat → Chars → Except PErr ((Tag × Tag) × Chars)
  | 0, _ => .error .parseFail
  | fuel + 1, s =>
    match STR_String s with
    | none => .error .parseFail
    | some (k, s1) =>
      match litCh ':' s1 with
      | none => .error .parseFail
      | some s2 =>
        match STR_TAG fuel s2 with
        | .ok (v, s3) => .ok ((k, v), s3)
        | .error e => .error e

/-- Models `kv + ZeroOrMore(Suppress(',') + kv)`. -/
def kvSeq : Nat → Chars → Except PErr (List (Tag × Tag) × Chars)
  | 0, _ => .error .parseFail
  | fuel + 1, s =>
    match kvEntry fuel s with
    | .error e => .error e
    | .ok (kv, s1) =>
      match kvSeqMore fuel s1 with
      | .ok (kvs, s2) => .ok (kv :: kvs, s2)
      | .error e => .error e

def kvSeqMore : Nat → Chars → Except PErr (List (Tag × Tag) × Chars)
  | 0, _ => .error .parseFail
  | fuel + 1, s =>
    match litCh ',' s with
    | none => .ok ([], s)
    | some s1 =>
      match kvEntry fuel s1 with
      | .error .parseFail => .ok ([], s)
      | .error e => .error e
      | .ok (kv, s2) =>
        match kvSeqMore fuel s2 with
        | .ok (kvs, s3) => .ok (kv :: kvs, s3)
        | .error e => .error e

/-- Models `STR_Compound = matchDict(STR_String, STR_TAG)` with the dict and
`make_tag_compound` parse actions. -/
def STR_Compound : Nat → Chars → Except PErr (Tag × Chars)
  | 0, _ => .error .parseFail
  | fuel + 1, s =>
    match litCh lbrace s with
    | none => .error .parseFail
    | some s1 =>
      match kvSeq fuel s1 with
      | .ok (pairs, s2) =>
        match litCh rbrace s2 with
        | none => .error .parseFail
        | some s3 => .ok (make_tag_compound pairs, s3)
      | .error .parseFail =>
        match litCh rbrace s1 with
        | none => .error .parseFail
        | some s3 => .ok (make_tag_compound [], s3)
      | .error e => .error e

end

/-- Fuel ample for any parse of an input of this length. -/
def fuelOf (s : String) : Nat := 4 * s.length + 8

/-- Models `str2nbt`: `STR_TAG.parseString(s, parseAll=True)[0]` — the whole
input must be consumed (trailing whitespace aside). -/
def str2nbt (s : String) : Except PErr Tag :=
  match STR_TAG (fuelOf s) s.data with
  | .ok (t, rest) => if skipWs rest = [] then .ok t else .error .parseFail
  | .error e => .error e

/-- Models `",".join` over printed fragments. -/
def joinComma : List (List Char) → List Char
  | [] => []
  | [x] => x
  | x :: xs => x ++ ',' :: joinComma xs

def joinInts (vs : List Int) : List Char := joinComma (vs.map pyIntChars)

mutual

/-- Models `nbt2str`, one registered case per tag variant, producing the char
sequence of the output string. -/
def nbt2strChars : Tag → List Char
  | .TAG_Byte v => pyIntChars v ++ ['b']
  | .TAG_Short v => pyIntChars v ++ ['s']
  | .TAG_Int v => pyIntChars v
  | .TAG_Long v => pyIntChars v ++ ['l']
  | .TAG_Float v => pyFloatStr v ++ ['f']
  | .TAG_Double v => pyFloatStr v ++ ['d']
  | .TAG_String v => dquote :: v.data ++ [dquote]
  | .TAG_Byte_Array vs => '[' :: 'B' :: ';' :: ' ' :: (joinInts vs ++ [']'])
  | .TAG_Int_Array vs => '[' :: 'I' :: ';' :: ' ' :: (joinInts vs ++ [']'])
  | .TAG_Long_Array vs => '[' :: 'L' :: ';' :: ' ' :: (joinInts vs ++ [']'])
  | .TAG_List _ ts => '[' :: (joinTags ts ++ [']'])
  | .TAG_Compound es => lbrace :: (joinEnts es ++ [rbrace])

/-- Models `",".join([nbt2str(tag) for tag in nbtdata.tags])`. -/
def joinTags : List Tag → List Char
  | [] => []
  | [t] => nbt2strChars t
  | t :: ts => nbt2strChars t ++ ',' :: joinTags ts

/-- Compound body: `'"' + tag.name + '":' + nbt2str(tag)`, comma-joined. -/
def joinEnts : List (String × Tag) → List Char
  | [] => []
  | [(n, t)] => dquote :: (n.data ++ dquote :: ':' :: nbt2strChars t)
  | (n, t) :: es => (dquote :: (n.data ++ dquote :: ':' :: nbt2strChars t)) ++ ',' :: joinEnts es

end

def nbt2str (t : Tag) : String := ⟨nbt2strChars t⟩

/-- Native (Python) values produced by `nbt2py`. -/
inductive Py
  | int (v : Int)
  | float (v : PyFloat)
  | str (v : String)
  | bytes (v : List Int)
  | list (v : List Py)
  | dict (v : List (String × Py))

/-- Python dict insertion: an existing key keeps its position and takes the
new value, a new key is appended. -/
def dictInsert (k : String) (v : Py) (d : List (String × Py)) : List (String × Py) :=
  if d.any (fun p => p.1 = k) then d.map (fun p => if p.1 = k then (k, v) else p)
  else d ++ [(k, v)]

mutual

/-- Models `nbt2py`, one registered case per tag variant. -/
def nbt2py : Tag → Py
  | .TAG_Byte v => .int v
  | .TAG_Short v => .int v
  | .TAG_Int v => .int v
  | .TAG_Long v => .int v
  | .TAG_Float v => .float v
  | .TAG_Double v => .float v
  | .TAG_String v => .str v
  | .TAG_Byte_Array vs => .bytes vs
  | .TAG_Int_Array vs => .list (vs.map Py.int)
  | .TAG_Long_Array vs => .list (vs.map Py.int)
  | .TAG_List _ ts => .list (pyListOf ts)
  | .TAG_Compound es => .dict (pyDictOf es [])

def pyListOf : List Tag → List Py
  | [] => []
  | t :: ts => nbt2py t :: pyListOf ts

/-- Models `{tag.name: nbt2py(tag) for tag in nbtdata.tags}`. -/
def pyDictOf : List (String × Tag) → List (String × Py) → List (String × Py)
  | [], acc => acc
  | (n, t) :: es, acc => pyDictOf es (dictInsert n (nbt2py t) acc)

end

/-- First char of `r` passes `p`; `false` on empty. -/
def headIs (p : Char → Bool) : Chars → Bool
  | [] => false
  | c :: _ => p c

def isStopC (c : Char) : Bool := c = ',' || c = ']' || c = rbrace

/-- The printed form of a subterm is followed by end-of-input or a
delimiter the grammar treats as a hard stop. -/
def stopsB : Chars → Bool
  | [] => true
  | c :: _ => isStopC c

/-- A rational is a decimal fraction: the float values `float()` produces
from the grammar's literals. -/
def IsDec (q : Rat) : Prop := ∃ (m : Int) (k : Nat), q = mkRat m (10 ^ k)

/-- The rest after a printed number neither extends its digits nor opens an
exponent: holds for each stop delimiter and each trailing suffix letter. -/
def numBdB : Chars → Bool
  | [] => true
  | c :: _ => !isDigitC c && !(c = 'e') && !(c = 'E')

/-- The rest after a printed integer extends it neither with digits nor
with a fraction or exponent. -/
def intBdB : Chars → Bool
  | [] => true
  | c :: _ => !isDigitC c && !(c = '.') && !(c = 'e') && !(c = 'E')

/-- String values the grammar can produce: no quote, no line break
(QuotedString is single-line without escapes; bare words are alphanumeric). -/
def OkStr (s : String) : Prop := ∀ c ∈ s.data, c ≠ dquote ∧ c ≠ '\n' ∧ c ≠ '\r'

/-- Invariants of every tag tree `str2nbt` can return (shown by
`STR_TAG_sound`); exactly the trees whose printed form re-parses. -/
inductive Producible : Tag → Prop
  | byte (v : Int) : Producible (.TAG_Byte v)
  | short (v : Int) : Producible (.TAG_Short v)
  | int (v : Int) : Producible (.TAG_Int v)
  | long (v : Int) : Producible (.TAG_Long v)
  | float (v : Rat) : IsDec v → FiniteDbl v → Producible (.TAG_Float (.finite v))
  | double (v : Rat) : IsDec v → FiniteDbl v → Producible (.TAG_Double (.finite v))
  | str (s : String) : OkStr s → Producible (.TAG_String s)
  | byteArr (v : Int) (vs : List Int) :
      (∀ x ∈ v :: vs, 0 ≤ x ∧ x < 256) → Producible (.TAG_Byte_Array (v :: vs))
  | intArr (v : Int) (vs : List Int) : Producible (.TAG_Int_Array (v :: vs))
  | longArr (v : Int) (vs : List Int) : Producible (.TAG_Long_Array (v :: vs))
  | list (t : Tag) (ts : List Tag) :
      Producible t → (∀ u ∈ ts, Producible u) → Producible (.TAG_List t.id (t :: ts))
  | compound (es : List (String × Tag)) :
      (∀ e ∈ es, OkStr e.1) → (∀ e ∈ es, Producible e.2) → Producible (.TAG_Compound es)

mutual

/-- Every Float/Double payload in the tree is finite: no IEEE infinity
(an overflowed literal parses, but its printed form does not re-parse as
a number, so the round trip is stated over these trees). -/
def noInfB : Tag → Bool
  | .TAG_Float (.finite _) => true
  | .TAG_Float _ => false
  | .TAG_Double (.finite _) => true
  | .TAG_Double _ => false
  | .TAG_List _ ts => noInfL ts
  | .TAG_Compound es => noInfE es
  | _ => true

def noInfL : List Tag → Bool
  | [] => true
  | t :: ts => noInfB t && noInfL ts

def noInfE : List (String × Tag) → Bool
  | [] => true
  | (_, t) :: es => noInfB t && noInfE es

end

/-- Head characters on which no numeric alternative can start. -/
def nonNumHead : Chars → Bool
  | [] => true
  | c :: _ => !isDigitC c && !(c = '-') && !(c = '+')

/-- Comma-prefixed tail of a printed number list. -/
def tailJoinInts : List Int → List Char
  | [] => []
  | v :: vs => ',' :: (pyIntChars v ++ tailJoinInts vs)

/-- Comma-prefixed tail of a printed list body. -/
def tailJoinTags : List Tag → List Char
  | [] => []
  | t :: ts => ',' :: (nbt2strChars t ++ tailJoinTags ts)

/-- One printed compound entry `"name":value`. -/
def entChars (n : String) (t : Tag) : List Char :=
  dquote :: (n.data ++ dquote :: ':' :: nbt2strChars t)

/-- Comma-prefixed tail of a printed compound body. -/
def tailJoinEnts : List (String × Tag) → List Char
  | [] => []
  | (n, t) :: es => ',' :: (entChars n t ++ tailJoinEnts es)

/-- Induction-ready statement: the printed form of `t` re-parses in front
of any stop-delimited rest. -/
def ReParses (t : Tag) : Prop :=
  ∀ f r, stopsB r = true → 4 * (nbt2strChars t).length + 4 ≤ f →
    STR_TAG f (nbt2strChars t ++ r) = .ok (t, r)

/-! ### Theorems -/

/-! ### Primitive facts -/

theorem skipWs_nil : skipWs [] = [] := rfl

theorem skipWs_cons_not (c : Char) (cs : Chars) (h : isWsC c = false) :
    skipWs (c :: cs) = c :: cs := by
  simp [skipWs, h]

theorem skipWs_cons_ws (c : Char) (cs : Chars) (h : isWsC c = true) :
    skipWs (c :: cs) = skipWs cs := by
  simp [skipWs, h]

theorem takeWhileCh_append (p : Char → Bool) (a b : Chars)
    (ha : ∀ c ∈ a, p c = true) (hb : headIs p b = false) :
    takeWhileCh p (a ++ b) = (a, b) := by
  induction a with
  | nil =>
    cases b with
    | nil => rfl
    | cons c cs => simp [headIs] at hb; simp [takeWhileCh, hb]
  | cons c cs ih =>
    have hc : p c = true := ha c (by simp)
    have hrec := ih (fun x hx => ha x (by simp [hx]))
    simp [takeWhileCh, hc, hrec]

theorem takeWhileCh_nomatch (p : Char → Bool) (b : Chars) (hb : headIs p b = false) :
    takeWhileCh p b = ([], b) := takeWhileCh_append p [] b (by simp) hb

/-! ### Digit strings -/

theorem digitsVal_go (b : Chars) : ∀ x : Nat,
    List.foldl (fun a c => 10 * a + (c.toNat - 48)) x b = x * 10 ^ b.length + digitsVal b := by
  induction b with
  | nil => intro x; simp [digitsVal]
  | cons c cs ih =>
    intro x
    show List.foldl _ (10 * x + (c.toNat - 48)) cs = _
    rw [ih]
    have hv : digitsVal (c :: cs) = (c.toNat - 48) * 10 ^ cs.length + digitsVal cs := by
      show List.foldl _ (10 * 0 + (c.toNat - 48)) cs = _
      rw [ih]
      ring_nf
    rw [hv, List.length_cons]
    ring

theorem digitsVal_append (a b : Chars) :
    digitsVal (a ++ b) = digitsVal a * 10 ^ b.length + digitsVal b := by
  unfold digitsVal
  rw [List.foldl_append]
  have := digitsVal_go b (List.foldl (fun a c => 10 * a + (c.toNat - 48)) 0 a)
  simpa [digitsVal] using this

theorem digitChar_toNat (r : Nat) (h : r < 10) : (Char.ofNat (48 + r)).toNat = 48 + r := by
  interval_cases r <;> decide

theorem isDigitC_digitChar (r : Nat) (h : r < 10) : isDigitC (Char.ofNat (48 + r)) = true := by
  interval_cases r <;> decide

theorem natDigitsAux_spec (f : Nat) : ∀ n, n ≤ f →
    digitsVal (natDigitsAux f n) = n ∧
    (∀ c ∈ natDigitsAux f n, isDigitC c = true) ∧
    (n ≠ 0 → natDigitsAux f n ≠ []) := by
  induction f with
  | zero =>
    intro n hn
    interval_cases n
    simp [natDigitsAux, digitsVal]
  | succ f ih =>
    intro n hn
    by_cases h0 : n = 0
    · subst h0; simp [natDigitsAux, digitsVal]
    · have hdiv : n / 10 ≤ f := by
        have : n / 10 < n := Nat.div_lt_self (Nat.pos_of_ne_zero h0) (by omega)
        omega
      obtain ⟨ihv, ihd, _⟩ := ih (n / 10) hdiv
      have hm : n % 10 < 10 := Nat.mod_lt _ (by omega)
      refine ⟨?_, ?_, ?_⟩
      · simp only [natDigitsAux, h0, if_neg, ne_eq, not_false_iff]
        rw [digitsVal_append, ihv]
        simp [digitsVal, digitChar_toNat _ hm]
        omega
      · simp only [natDigitsAux, h0, if_neg, ne_eq, not_false_iff]
        intro c hc
        rcases List.mem_append.mp hc with h | h
        · exact ihd c h
        · simp at h; subst h; exact isDigitC_digitChar _ hm
      · intro _
        simp only [natDigitsAux, h0, if_neg, ne_eq, not_false_iff]
        simp

theorem digitsVal_natDigits (n : Nat) : digitsVal (natDigits n) = n := by
  unfold natDigits
  by_cases h : n = 0
  · simp [h, digitsVal]
  · simp only [h, if_neg, ne_eq, not_false_iff]
    exact (natDigitsAux_spec n n le_rfl).1

theorem natDigits_all_digits (n : Nat) : ∀ c ∈ natDigits n, isDigitC c = true := by
  unfold natDigits
  by_cases h : n = 0
  · simp [h]; decide
  · simp only [h, if_neg, ne_eq, not_false_iff]
    exact (natDigitsAux_spec n n le_rfl).2.1

theorem natDigits_ne_nil (n : Nat) : natDigits n ≠ [] := by
  unfold natDigits
  by_cases h : n = 0
  · simp [h]
  · simp only [h, if_neg, ne_eq, not_false_iff]
    exact (natDigitsAux_spec n n le_rfl).2.2 h

/-! ### Prime multiplicity (for the decimal printer) -/

theorem fexpAux_spec (f : Nat) : ∀ p n, n ≤ f → 2 ≤ p → n ≠ 0 →
    p ^ fexpAux f p n ∣ n ∧ ¬ p ∣ n / p ^ fexpAux f p n := by
  induction f with
  | zero => intro p n hn _ h0; omega
  | succ f ih =>
    intro p n hn hp h0
    by_cases hd : n % p = 0
    · have hpn : p ∣ n := Nat.dvd_of_mod_eq_zero hd
      have hq0 : n / p ≠ 0 := by
        have : p ≤ n := Nat.le_of_dvd (Nat.pos_of_ne_zero h0) hpn
        have := Nat.div_pos this (by omega)
        omega
      have hle : n / p ≤ f := by
        have : n / p < n := Nat.div_lt_self (Nat.pos_of_ne_zero h0) (by omega)
        omega
      obtain ⟨ih1, ih2⟩ := ih p (n / p) hle hp hq0
      have hcond : (2 ≤ p ∧ n ≠ 0 ∧ n % p = 0) := ⟨hp, h0, hd⟩
      set e := fexpAux f p (n / p) with he
      have hpow : p ^ (1 + e) = p * p ^ e := by rw [pow_add, pow_one]
      constructor
      · simp only [fexpAux, if_pos hcond, ← he]
        rw [hpow]
        obtain ⟨m, hm⟩ := ih1
        refine ⟨m, ?_⟩
        have hnp : n = p * (n / p) := (Nat.mul_div_cancel' hpn).symm
        rw [hnp, hm]
        ring
      · simp only [fexpAux, if_pos hcond, ← he]
        rw [hpow, ← Nat.div_div_eq_div_mul]
        exact ih2
    · have hcond : ¬(2 ≤ p ∧ n ≠ 0 ∧ n % p = 0) := by tauto
      simp only [fexpAux, if_neg hcond, pow_zero, Nat.div_one]
      refine ⟨Nat.one_dvd n, fun h => ?_⟩
      obtain ⟨m, rfl⟩ := h
      exact hd (Nat.mul_mod_right p m)

theorem fexp_spec (p n : Nat) (hp : 2 ≤ p) (h0 : n ≠ 0) :
    p ^ fexp p n ∣ n ∧ ¬ p ∣ n / p ^ fexp p n :=
  fexpAux_spec n p n le_rfl hp h0

theorem le_fexp (p n x : Nat) (hp : 2 ≤ p) (h0 : n ≠ 0) (hx : p ^ x ∣ n) : x ≤ fexp p n := by
  by_contra hlt
  push_neg at hlt
  obtain ⟨hdvd, hnd⟩ := fexp_spec p n hp h0
  set e := fexp p n with he
  have hsucc : p ^ (e + 1) ∣ n := dvd_trans (pow_dvd_pow p (by omega)) hx
  obtain ⟨m, hm⟩ := hsucc
  apply hnd
  refine ⟨m, ?_⟩
  have hn' : n = p ^ e * (p * m) := by rw [hm, pow_succ]; ring
  rw [hn', Nat.mul_div_cancel_left _ (pow_pos (by omega : 0 < p) e)]

/-- A divisor of a power of ten divides the power of ten given by its own
2- and 5-multiplicities. -/
theorem dvd_ten_pow_fexp (d : Nat) (h0 : d ≠ 0) (j : Nat) (hdvd : d ∣ 10 ^ j) :
    d ∣ 10 ^ max (fexp 2 d) (fexp 5 d) := by
  set M := max (fexp 2 d) (fexp 5 d) with hM
  obtain ⟨h2d, h2nd⟩ := fexp_spec 2 d (by omega) h0
  set a := fexp 2 d with ha
  set c := d / 2 ^ a with hc
  have hdc : d = 2 ^ a * c := (Nat.mul_div_cancel' h2d).symm
  have hc0 : c ≠ 0 := by
    intro h; rw [h, Nat.mul_zero] at hdc; exact h0 hdc
  obtain ⟨h5c, h5nc⟩ := fexp_spec 5 c (by omega) hc0
  set b' := fexp 5 c with hb'
  set e := c / 5 ^ b' with he
  have hce : c = 5 ^ b' * e := (Nat.mul_div_cancel' h5c).symm
  have he0 : e ≠ 0 := by
    intro h; rw [h, Nat.mul_zero] at hce; exact hc0 hce
  have h2e : ¬ 2 ∣ e := fun h => h2nd (dvd_trans h ⟨5 ^ b', by rw [hce]; ring⟩)
  have hed : e ∣ 10 ^ j := by
    refine dvd_trans ?_ hdvd
    exact ⟨2 ^ a * 5 ^ b', by rw [hdc, hce]; ring⟩
  have hcop : Nat.Coprime e 10 := by
    have c2 : Nat.Coprime e 2 :=
      ((Nat.Prime.coprime_iff_not_dvd Nat.prime_two).mpr h2e).symm
    have c5 : Nat.Coprime e 5 :=
      ((Nat.Prime.coprime_iff_not_dvd Nat.prime_five).mpr h5nc).symm
    have h10 : (10 : Nat) = 2 * 5 := by norm_num
    rw [h10]
    exact Nat.Coprime.mul_right c2 c5
  have he1 : e = 1 := (hcop.pow_right j).eq_one_of_dvd hed
  have hdab : d = 2 ^ a * 5 ^ b' := by rw [hdc, hce, he1, Nat.mul_one]
  have hb'le : b' ≤ M := by
    have : b' ≤ fexp 5 d :=
      le_fexp 5 d b' (by omega) h0 ⟨2 ^ a, by rw [hdab]; ring⟩
    omega
  have haM : a ≤ M := by omega
  have h10M : (10 : Nat) ^ M = 2 ^ M * 5 ^ M := by rw [← Nat.mul_pow]
  rw [h10M, hdab]
  exact Nat.mul_dvd_mul (pow_dvd_pow 2 haM) (pow_dvd_pow 5 hb'le)

theorem IsDec.den_dvd (q : Rat) (h : IsDec q) :
    q.den ∣ 10 ^ max (fexp 2 q.den) (fexp 5 q.den) := by
  obtain ⟨m, k, hq⟩ := h
  have hdvd : (q.den : Int) ∣ ((10 : Nat) ^ k : Int) := by
    rw [hq, Rat.mkRat_eq_divInt]
    have := Rat.den_dvd m ((10 : Nat) ^ k : Int)
    simpa using this
  have : q.den ∣ 10 ^ k := by exact_mod_cast hdvd
  exact dvd_ten_pow_fexp q.den q.den_nz k this

/-- The printed decimal re-evaluates to the value: core identity behind the
float round trip. -/
theorem pyFloat_mkRat (q : Rat) (hq : IsDec q) :
    mkRat (if q.num < 0 then
        -(((q.num.natAbs * 10 ^ max (fexp 2 q.den) (fexp 5 q.den)) / q.den : Nat) : Int)
      else (((q.num.natAbs * 10 ^ max (fexp 2 q.den) (fexp 5 q.den)) / q.den : Nat) : Int))
      (10 ^ max (fexp 2 q.den) (fexp 5 q.den)) = q := by
  set k := max (fexp 2 q.den) (fexp 5 q.den) with hk
  have hdvd : q.den ∣ 10 ^ k := hq.den_dvd
  have hden0 : (q.den : ℚ) ≠ 0 := by exact_mod_cast q.den_nz
  have hten0 : (((10 : Nat) ^ k : Nat) : ℚ) ≠ 0 := by positivity
  have hmd : ((q.num.natAbs * 10 ^ k) / q.den : Nat) * q.den = q.num.natAbs * 10 ^ k :=
    Nat.div_mul_cancel (Dvd.dvd.mul_left hdvd _)
  set m : Nat := (q.num.natAbs * 10 ^ k) / q.den with hm
  have hc : (m : ℚ) * (q.den : ℚ) = (q.num.natAbs : ℚ) * (10 : ℚ) ^ k := by
    exact_mod_cast hmd
  have h10 : ((10 : ℚ)) ^ k ≠ 0 := by positivity
  by_cases hneg : q.num < 0
  · simp only [if_pos hneg]
    rw [Rat.mkRat_eq_divInt, Rat.divInt_eq_div]
    push_cast
    rw [div_eq_iff h10]
    conv_rhs => rw [← Rat.num_div_den q]
    rw [div_mul_eq_mul_div, eq_div_iff hden0]
    have habs : ((q.num.natAbs : ℚ)) = -(q.num : ℚ) := by
      rw [Int.cast_natAbs]
      have h1 : |q.num| = -q.num := abs_of_nonpos (le_of_lt hneg)
      exact_mod_cast h1
    rw [habs] at hc
    linarith [hc]
  · simp only [if_neg hneg]
    rw [Rat.mkRat_eq_divInt, Rat.divInt_eq_div]
    push_cast
    rw [div_eq_iff h10]
    conv_rhs => rw [← Rat.num_div_den q]
    rw [div_mul_eq_mul_div, eq_div_iff hden0]
    have habs : ((q.num.natAbs : ℚ)) = (q.num : ℚ) := by
      rw [Int.cast_natAbs]
      have h1 : |q.num| = q.num := abs_of_nonneg (not_lt.mp hneg)
      exact_mod_cast h1
    rw [habs] at hc
    linarith [hc]

/-! ### Character-class facts -/

theorem isStopC_cases (c : Char) (h : isStopC c = true) : c = ',' ∨ c = ']' ∨ c = rbrace := by
  simp [isStopC] at h
  tauto

theorem isWsC_cases (c : Char) (h : isWsC c = true) : c = ' ' ∨ c = '\t' ∨ c = '\n' := by
  simp [isWsC] at h
  tauto

theorem isDigitC_not_sign (c : Char) (h : isDigitC c = true) : c ≠ '-' ∧ c ≠ '+' := by
  constructor <;> rintro rfl <;> exact absurd h (by decide)

theorem isDigitC_not_ws (c : Char) (h : isDigitC c = true) : isWsC c = false := by
  by_contra hw
  rcases isWsC_cases c (by revert hw; cases isWsC c <;> simp) with rfl | rfl | rfl <;>
    exact absurd h (by decide)

theorem isDigitC_not_dot (c : Char) (h : isDigitC c = true) : c ≠ '.' := by
  rintro rfl; exact absurd h (by decide)

/-- Leading whitespace skipping leaves a string starting with a
non-whitespace character intact. -/
theorem skipWs_app (c : Char) (cs r : Chars) (h : isWsC c = false) :
    skipWs ((c :: cs) ++ r) = (c :: cs) ++ r := by
  simp [skipWs, h]

theorem scanSign_digit (c : Char) (cs : Chars) (h : isDigitC c = true) :
    scanSign (c :: cs) = (false, c :: cs) := by
  obtain ⟨h1, h2⟩ := isDigitC_not_sign c h
  simp [scanSign, h1, h2]

theorem scanSign_neg (cs : Chars) : scanSign ('-' :: cs) = (true, cs) := by
  simp [scanSign]

/-- Splitting a printed integer into consumed digits and sign. -/
theorem pyIntChars_split (n : Int) :
    pyIntChars n = (if n < 0 then ['-'] else []) ++ natDigits n.natAbs := by
  unfold pyIntChars
  by_cases h : n < 0 <;> simp [h]

theorem natDigits_head_digit (n : Nat) :
    ∃ c cs, natDigits n = c :: cs ∧ isDigitC c = true := by
  rcases hd : natDigits n with _ | ⟨c, cs⟩
  · exact absurd hd (natDigits_ne_nil n)
  · exact ⟨c, cs, rfl, natDigits_all_digits n c (by rw [hd]; simp)⟩

/-- The integer scanner on a printed integer consumes exactly the printed
digits: shared core of the `matchNumber` printed-form lemmas. -/
theorem matchIntNum_printed_core (suf : Suf) (n : Int) (r : Chars)
    (hr : headIs isDigitC r = false) :
    matchIntNum suf (pyIntChars n ++ r) =
      match matchSuf suf r with
      | none => none
      | some r2 => some (n, r2) := by
  obtain ⟨c, cs, hD, hc⟩ := natDigits_head_digit n.natAbs
  have hall : ∀ x ∈ natDigits n.natAbs, isDigitC x = true := natDigits_all_digits _
  have htake : takeWhileCh isDigitC (natDigits n.natAbs ++ r) = (natDigits n.natAbs, r) :=
    takeWhileCh_append _ _ _ hall hr
  have hval : digitsVal (natDigits n.natAbs) = n.natAbs := digitsVal_natDigits _
  by_cases hneg : n < 0
  · have hvn : -((n.natAbs : Int)) = n := by omega
    have hsplit : pyIntChars n ++ r = '-' :: (natDigits n.natAbs ++ r) := by
      rw [pyIntChars_split, if_pos hneg]
      simp
    rw [hsplit, hD] at *
    have htake' : takeWhileCh isDigitC (c :: (cs ++ r)) = (c :: cs, r) := by
      simpa using htake
    unfold matchIntNum
    rw [skipWs_cons_not '-' _ (by decide)]
    cases hsuf : matchSuf suf r with
    | none => simp [scanSign_neg, htake', hsuf]
    | some r2 => simp [scanSign_neg, htake', hsuf, hval, hvn, abs_of_neg hneg]
  · have hvn : ((n.natAbs : Int)) = n := by omega
    have hsplit : pyIntChars n ++ r = natDigits n.natAbs ++ r := by
      rw [pyIntChars_split, if_neg hneg]
      simp
    rw [hsplit, hD] at *
    have htake' : takeWhileCh isDigitC (c :: (cs ++ r)) = (c :: cs, r) := by
      simpa using htake
    unfold matchIntNum
    rw [List.cons_append, skipWs_cons_not c _ (isDigitC_not_ws c hc)]
    cases hsuf : matchSuf suf r with
    | none => simp [scanSign_digit c (cs ++ r) hc, htake', hsuf]
    | some r2 =>
      simp [scanSign_digit c (cs ++ r) hc, htake', hsuf, hval, hvn,
        abs_of_nonneg (not_lt.mp hneg)]

/-! ### Parsing a printed float -/

theorem digitsVal_replicate_zero (z : Nat) : digitsVal (List.replicate z '0') = 0 := by
  induction z with
  | zero => rfl
  | succ z ih =>
    have : List.replicate (z + 1) '0' = '0' :: List.replicate z '0' := rfl
    rw [this]
    show List.foldl _ (10 * 0 + ('0'.toNat - 48)) _ = 0
    have h0 : (10 * 0 + ('0'.toNat - 48)) = 0 := by decide
    rw [h0]
    exact ih

theorem digitsVal_padZeros (k : Nat) (ds : Chars) :
    digitsVal (padZeros k ds) = digitsVal ds := by
  unfold padZeros
  rw [digitsVal_append, digitsVal_replicate_zero]
  ring

theorem padZeros_all_digits (k : Nat) (ds : Chars) (h : ∀ c ∈ ds, isDigitC c = true) :
    ∀ c ∈ padZeros k ds, isDigitC c = true := by
  intro c hc
  rcases List.mem_append.mp hc with h1 | h1
  · have := List.eq_of_mem_replicate h1
    subst this
    decide
  · exact h c h1

theorem padZeros_length (k : Nat) (ds : Chars) : k ≤ (padZeros k ds).length := by
  unfold padZeros
  rw [List.length_append, List.length_replicate]
  omega

/-- Shape of the printed float: optional minus sign, a nonempty integer
digit block, a dot, a nonempty fraction digit block, re-evaluating to the
value. -/
theorem pyFloatChars_struct (q : Rat) (hq : IsDec q) :
    ∃ A B : Chars, pyFloatChars q = (if q.num < 0 then ['-'] else []) ++ (A ++ '.' :: B) ∧
      A ≠ [] ∧ B ≠ [] ∧ (∀ c ∈ A, isDigitC c = true) ∧ (∀ c ∈ B, isDigitC c = true) ∧
      mkRat (if q.num < 0 then -((digitsVal A * 10 ^ B.length + digitsVal B : Nat) : Int)
             else ((digitsVal A * 10 ^ B.length + digitsVal B : Nat) : Int))
        (10 ^ B.length) = q := by
  have hmk := pyFloat_mkRat q hq
  unfold pyFloatChars
  set k := max (fexp 2 q.den) (fexp 5 q.den) with hk
  set m := q.num.natAbs * 10 ^ k / q.den with hm
  by_cases hk0 : k = 0
  · refine ⟨natDigits m, ['0'], ?_, natDigits_ne_nil m, by simp, natDigits_all_digits m,
      by intro c hc; simp at hc; subst hc; decide, ?_⟩
    · rw [if_pos hk0]
      by_cases hneg : q.num < 0 <;> simp [hneg]
    · have hB : ([ '0' ] : Chars).length = 1 := rfl
      rw [hB, digitsVal_natDigits]
      have h0 : digitsVal ['0'] = 0 := by decide
      rw [h0]
      rw [hk0] at hmk
      simp only [pow_zero] at hmk
      have hten : (10 : Nat) ^ 1 = 1 * 10 := by norm_num
      by_cases hneg : q.num < 0
      · rw [if_pos hneg] at hmk ⊢
        have harg : -(((m * 10 ^ 1 + 0 : Nat)) : Int) = -(m : Int) * (10 : Nat) := by
          push_cast; ring
        rw [harg, hten, Rat.mkRat_mul_right (by norm_num)]
        exact hmk
      · rw [if_neg hneg] at hmk ⊢
        have harg : (((m * 10 ^ 1 + 0 : Nat)) : Int) = (m : Int) * (10 : Nat) := by
          push_cast; ring
        rw [harg, hten, Rat.mkRat_mul_right (by norm_num)]
        exact hmk
  · set ds := padZeros (k + 1) (natDigits m) with hds
    have hlen : k + 1 ≤ ds.length := padZeros_length _ _
    have hdig : ∀ c ∈ ds, isDigitC c = true := padZeros_all_digits _ _ (natDigits_all_digits m)
    have hdval : digitsVal ds = m := by rw [hds, digitsVal_padZeros, digitsVal_natDigits]
    set A := ds.take (ds.length - k) with hA
    set B := ds.drop (ds.length - k) with hB
    have hAB : A ++ B = ds := List.take_append_drop _ _
    have hAlen : A.length = ds.length - k := by
      rw [hA, List.length_take]
      omega
    have hBlen : B.length = k := by
      rw [hB, List.length_drop]
      omega
    refine ⟨A, B, ?_, ?_, ?_, ?_, ?_, ?_⟩
    · rw [if_neg hk0]
      by_cases hneg : q.num < 0 <;> simp [hneg]
    · intro h
      have := congrArg List.length h
      simp [hAlen] at this
      omega
    · intro h
      have := congrArg List.length h
      simp [hBlen] at this
      omega
    · intro c hc; exact hdig c (List.take_subset _ _ hc)
    · intro c hc; exact hdig c (List.drop_subset _ _ hc)
    · have hsplit : digitsVal A * 10 ^ B.length + digitsVal B = m := by
        rw [← hdval, ← hAB, digitsVal_append]
      rw [hsplit, hBlen]
      exact hmk

theorem numBdB_not_digit (r : Chars) (h : numBdB r = true) : headIs isDigitC r = false := by
  cases r with
  | nil => rfl
  | cons c cs => simp [numBdB] at h; simp [headIs, h.1]

theorem scanExp_numBd (r : Chars) (h : numBdB r = true) : scanExp r = (0, r) := by
  cases r with
  | nil => rfl
  | cons c cs =>
    simp [numBdB] at h
    simp [scanExp, h.1.2, h.2]

theorem floatRat_eq_ND (neg : Bool) (i fv fl : Nat) (e : Int) :
    floatRat neg i fv fl e =
      mkRat (floatND neg i fv fl e).1 (floatND neg i fv fl e).2 := by
  by_cases h : 0 ≤ e <;> simp [floatRat, floatND, h] <;> norm_cast

theorem floatND_den_pos (neg : Bool) (i fv fl : Nat) (e : Int) :
    0 < (floatND neg i fv fl e).2 := by
  by_cases h : 0 ≤ e <;> simp [floatND, h] <;> exact pow_pos (by norm_num) _

theorem mkRat_lt_iff (n : Int) (d : Nat) (C : Int) (hd : 0 < d) :
    mkRat n d < (C : Rat) ↔ n < C * (d : Int) := by
  rw [Rat.mkRat_eq_div, div_lt_iff (show (0 : Rat) < d by exact_mod_cast hd)]
  rw [show ((C : Rat) * (d : Rat)) = ((C * (d : Int) : Int) : Rat) by push_cast; ring]
  exact Int.cast_lt

theorem neg_lt_mkRat_iff (n : Int) (d : Nat) (C : Int) (hd : 0 < d) :
    -(C : Rat) < mkRat n d ↔ -(C * (d : Int)) < n := by
  rw [Rat.mkRat_eq_div, lt_div_iff (show (0 : Rat) < d by exact_mod_cast hd)]
  rw [show (-(C : Rat) * (d : Rat)) = ((-(C * (d : Int)) : Int) : Rat) by push_cast; ring]
  exact Int.cast_lt

/-- The parsed float value is finite exactly when the literal's exact
value stays below the overflow threshold; the finite payload is the exact
rational. -/
theorem floatVal_finite (neg : Bool) (i fv fl : Nat) (e : Int) (q : Rat)
    (h : floatVal neg i fv fl e = .finite q) :
    floatRat neg i fv fl e = q ∧ FiniteDbl q := by
  unfold floatVal at h
  simp only [] at h
  split at h
  · exact absurd h (by simp)
  · split at h
    · exact absurd h (by simp)
    · rename_i h1 h2
      have hq : mkRat (floatND neg i fv fl e).1 (floatND neg i fv fl e).2 = q := by
        simpa using h
      refine ⟨by rw [floatRat_eq_ND]; exact hq, ?_, ?_⟩
      · rw [← hq]
        exact (neg_lt_mkRat_iff _ _ _ (floatND_den_pos neg i fv fl e)).mpr (by omega)
      · rw [← hq]
        exact (mkRat_lt_iff _ _ _ (floatND_den_pos neg i fv fl e)).mpr (by omega)

/-- Conversely, an exact value already known finite parses to itself. -/
theorem floatVal_of_lt (neg : Bool) (i fv fl : Nat) (e : Int) (q : Rat)
    (hq : floatRat neg i fv fl e = q) (hfd : FiniteDbl q) :
    floatVal neg i fv fl e = .finite q := by
  obtain ⟨h1, h2⟩ := hfd
  have hR := floatRat_eq_ND neg i fv fl e
  rw [hq] at hR
  rw [hR] at h1 h2
  have hb1 := (neg_lt_mkRat_iff _ _ _ (floatND_den_pos neg i fv fl e)).mp h1
  have hb2 := (mkRat_lt_iff _ _ _ (floatND_den_pos neg i fv fl e)).mp h2
  unfold floatVal
  simp only []
  rw [if_neg (by omega), if_neg (by omega)]
  rw [← hR]

/-- The float scanner on a printed float consumes exactly the printed
decimal and yields the value back. -/
theorem matchFloatNum_printed_core (suf : Suf) (q : Rat) (hq : IsDec q)
    (hfd : FiniteDbl q) (r : Chars) (hr : numBdB r = true) :
    matchFloatNum suf (pyFloatChars q ++ r) =
      match matchSuf suf r with
      | none => none
      | some r2 => some (.finite q, r2) := by
  obtain ⟨A, B, hform, hAne, hBne, hAdig, hBdig, hval⟩ := pyFloatChars_struct q hq
  obtain ⟨a, as, hA⟩ := List.exists_cons_of_ne_nil hAne
  have ha : isDigitC a = true := hAdig a (by rw [hA]; simp)
  have htakeA : takeWhileCh isDigitC (A ++ '.' :: (B ++ r)) = (A, '.' :: (B ++ r)) :=
    takeWhileCh_append _ _ _ hAdig (by simp [headIs]; decide)
  have htakeB : takeWhileCh isDigitC (B ++ r) = (B, r) :=
    takeWhileCh_append _ _ _ hBdig (numBdB_not_digit r hr)
  have hfrac : scanFrac ('.' :: (B ++ r)) = (digitsVal B, B.length, r) := by
    simp [scanFrac, htakeB]
  have hexp := scanExp_numBd r hr
  have hAemp : A.isEmpty = false := by rw [hA]; rfl
  have hfv : floatRat (decide (q.num < 0)) (digitsVal A) (digitsVal B) B.length 0 = q := by
    by_cases hneg : q.num < 0
    · rw [decide_eq_true hneg]
      rw [if_pos hneg] at hval
      show mkRat (-((digitsVal A * 10 ^ B.length + digitsVal B : Nat) : Int) * 10 ^ (0 : Int).toNat)
        (10 ^ B.length) = q
      simpa using hval
    · rw [decide_eq_false hneg]
      rw [if_neg hneg] at hval
      show mkRat (((digitsVal A * 10 ^ B.length + digitsVal B : Nat) : Int) * 10 ^ (0 : Int).toNat)
        (10 ^ B.length) = q
      simpa using hval
  by_cases hneg : q.num < 0
  · have hform' : pyFloatChars q ++ r = '-' :: (A ++ '.' :: (B ++ r)) := by
      rw [hform, if_pos hneg]
      simp
    rw [hform']
    unfold matchFloatNum
    rw [skipWs_cons_not '-' _ (by decide)]
    cases hsuf : matchSuf suf r with
    | none => simp [scanSign_neg, htakeA, hAemp, hfrac, hexp, hsuf]
    | some r2 =>
      have hd : (decide (q.num < 0)) = true := decide_eq_true hneg
      rw [hd] at hfv
      have hfin := floatVal_of_lt _ _ _ _ _ q hfv hfd
      simp [scanSign_neg, htakeA, hAemp, hfrac, hexp, hsuf, hfin]
  · have hform' : pyFloatChars q ++ r = a :: (as ++ '.' :: (B ++ r)) := by
      rw [hform, if_neg hneg, hA]
      simp
    rw [hform']
    unfold matchFloatNum
    rw [skipWs_cons_not a _ (isDigitC_not_ws a ha)]
    rw [hA] at htakeA
    have htakeA' : takeWhileCh isDigitC (a :: (as ++ '.' :: (B ++ r))) = (a :: as, '.' :: (B ++ r)) := by
      simpa using htakeA
    cases hsuf : matchSuf suf r with
    | none => simp [scanSign_digit a _ ha, htakeA', hfrac, hexp, hsuf]
    | some r2 =>
      have hd : (decide (q.num < 0)) = false := decide_eq_false hneg
      rw [hd] at hfv
      rw [hA] at hfv
      have hfin := floatVal_of_lt _ _ _ _ _ q hfv hfd
      simp [scanSign_digit a _ ha, htakeA', hfrac, hexp, hsuf, hfin]

theorem intBdB_numBd (r : Chars) (h : intBdB r = true) : numBdB r = true := by
  cases r with
  | nil => rfl
  | cons c cs =>
    simp [intBdB] at h
    simp [numBdB, h.1.1.1, h.1.2, h.2]

theorem intBdB_not_digit (r : Chars) (h : intBdB r = true) : headIs isDigitC r = false :=
  numBdB_not_digit r (intBdB_numBd r h)

theorem scanFrac_nodot (r : Chars) (h : headIs (fun c => c = '.') r = false) :
    scanFrac r = (0, 0, r) := by
  cases r with
  | nil => rfl
  | cons c cs =>
    simp [headIs] at h
    simp [scanFrac, h]

/-- The float alternatives on a printed integer consume the same digits:
no fraction or exponent follows. -/
theorem matchFloatNum_on_int_printed (suf : Suf) (n : Int) (r : Chars)
    (hr : intBdB r = true) :
    matchFloatNum suf (pyIntChars n ++ r) =
      match matchSuf suf r with
      | none => none
      | some r2 => some (floatVal (decide (n < 0)) n.natAbs 0 0 0, r2) := by
  obtain ⟨c, cs, hD, hc⟩ := natDigits_head_digit n.natAbs
  have hall : ∀ x ∈ natDigits n.natAbs, isDigitC x = true := natDigits_all_digits _
  have htake : takeWhileCh isDigitC (natDigits n.natAbs ++ r) = (natDigits n.natAbs, r) :=
    takeWhileCh_append _ _ _ hall (intBdB_not_digit r hr)
  have hval : digitsVal (natDigits n.natAbs) = n.natAbs := digitsVal_natDigits _
  have hfrac : scanFrac r = (0, 0, r) := by
    apply scanFrac_nodot
    cases r with
    | nil => rfl
    | cons x xs =>
      simp [intBdB] at hr
      simp [headIs, hr.1.1.2]
  have hexp : scanExp r = (0, r) := scanExp_numBd r (intBdB_numBd r hr)
  by_cases hneg : n < 0
  · have hsplit : pyIntChars n ++ r = '-' :: (natDigits n.natAbs ++ r) := by
      rw [pyIntChars_split, if_pos hneg]
      simp
    rw [hsplit, hD] at *
    have htake' : takeWhileCh isDigitC (c :: (cs ++ r)) = (c :: cs, r) := by
      simpa using htake
    unfold matchFloatNum
    rw [skipWs_cons_not '-' _ (by decide)]
    have hdec : decide (n < 0) = true := decide_eq_true hneg
    cases hsuf : matchSuf suf r with
    | none => simp [scanSign_neg, htake', hfrac, hexp, hsuf]
    | some r2 => simp [scanSign_neg, htake', hfrac, hexp, hsuf, hval, hdec]
  · have hsplit : pyIntChars n ++ r = natDigits n.natAbs ++ r := by
      rw [pyIntChars_split, if_neg hneg]
      simp
    rw [hsplit, hD] at *
    have htake' : takeWhileCh isDigitC (c :: (cs ++ r)) = (c :: cs, r) := by
      simpa using htake
    unfold matchFloatNum
    rw [List.cons_append, skipWs_cons_not c _ (isDigitC_not_ws c hc)]
    have hdec : decide (n < 0) = false := decide_eq_false hneg
    cases hsuf : matchSuf suf r with
    | none => simp [scanSign_digit c (cs ++ r) hc, htake', hfrac, hexp, hsuf]
    | some r2 =>
      simp [scanSign_digit c (cs ++ r) hc, htake', hfrac, hexp, hsuf, hval, hdec]

/-- The integer alternatives on a printed float stop at the dot: with a
required letter suffix they fail, bare they leave the fraction unread. -/
theorem matchIntNum_on_float_printed (suf : Suf) (q : Rat) (hq : IsDec q) (r : Chars)
    (hr : numBdB r = true) :
    (∀ c2, suf = .reqSuf c2 → c2 ≠ '.' → matchIntNum suf (pyFloatChars q ++ r) = none) ∧
    (suf = .noSuf → ∃ v rest1, matchIntNum suf (pyFloatChars q ++ r) = some (v, rest1) ∧
      r.length + 2 ≤ rest1.length) := by
  obtain ⟨A, B, hform, hAne, hBne, hAdig, hBdig, hval⟩ := pyFloatChars_struct q hq
  obtain ⟨a, as, hA⟩ := List.exists_cons_of_ne_nil hAne
  have ha : isDigitC a = true := hAdig a (by rw [hA]; simp)
  have htakeA : takeWhileCh isDigitC (A ++ '.' :: (B ++ r)) = (A, '.' :: (B ++ r)) :=
    takeWhileCh_append _ _ _ hAdig (by simp [headIs]; decide)
  have hAemp : A.isEmpty = false := by rw [hA]; rfl
  have hlen : r.length + 2 ≤ ('.' :: (B ++ r)).length := by
    simp [List.length_cons, List.length_append]
    have : 1 ≤ B.length := List.length_pos.mpr hBne
    omega
  by_cases hneg : q.num < 0
  · have hform' : pyFloatChars q ++ r = '-' :: (A ++ '.' :: (B ++ r)) := by
      rw [hform, if_pos hneg]
      simp
    rw [hform']
    constructor
    · rintro c2 rfl hc2
      unfold matchIntNum
      rw [skipWs_cons_not '-' _ (by decide)]
      have hms : matchSuf (.reqSuf c2) ('.' :: (B ++ r)) = none := by
        simp [matchSuf]
        intro h
        exact absurd h.symm hc2
      simp [scanSign_neg, htakeA, hAemp, hms]
    · rintro rfl
      unfold matchIntNum
      rw [skipWs_cons_not '-' _ (by decide)]
      refine ⟨-(digitsVal A : Int), '.' :: (B ++ r), ?_, hlen⟩
      simp [scanSign_neg, htakeA, hAemp, matchSuf]
  · have hform' : pyFloatChars q ++ r = a :: (as ++ '.' :: (B ++ r)) := by
      rw [hform, if_neg hneg, hA]
      simp
    rw [hform']
    rw [hA] at htakeA
    have htakeA' : takeWhileCh isDigitC (a :: (as ++ '.' :: (B ++ r)))
        = (a :: as, '.' :: (B ++ r)) := by
      simpa using htakeA
    constructor
    · rintro c2 rfl hc2
      unfold matchIntNum
      rw [skipWs_cons_not a _ (isDigitC_not_ws a ha)]
      have hms : matchSuf (.reqSuf c2) ('.' :: (B ++ r)) = none := by
        simp [matchSuf]
        intro h
        exact absurd h.symm hc2
      simp [scanSign_digit a _ ha, htakeA', hms]
    · rintro rfl
      unfold matchIntNum
      rw [skipWs_cons_not a _ (isDigitC_not_ws a ha)]
      refine ⟨(digitsVal (a :: as) : Int), '.' :: (B ++ r), ?_, hlen⟩
      simp [scanSign_digit a _ ha, htakeA', matchSuf]

/-! ### The numeric `pp.Or` on printed forms -/

theorem stops_intBd (r : Chars) (h : stopsB r = true) : intBdB r = true := by
  cases r with
  | nil => rfl
  | cons c cs =>
    rcases isStopC_cases c h with rfl | rfl | rfl <;> rfl

theorem matchSuf_req_stop (c2 : Char) (r : Chars) (h : stopsB r = true)
    (h1 : c2 ≠ ',') (h2 : c2 ≠ ']') (h3 : c2 ≠ rbrace) :
    matchSuf (.reqSuf c2) r = none := by
  cases r with
  | nil => rfl
  | cons c cs =>
    rcases isStopC_cases c h with rfl | rfl | rfl
    · simp only [matchSuf]
      rw [if_neg]
      intro hx
      exact h1 (by rw [← hx]; rfl)
    · simp only [matchSuf]
      rw [if_neg]
      intro hx
      exact h2 (by rw [← hx]; rfl)
    · simp only [matchSuf]
      rw [if_neg]
      intro hx
      exact h3 (by rw [← hx]; rfl)

theorem matchSuf_opt_stop (c2 : Char) (r : Chars) (h : stopsB r = true)
    (h1 : c2 ≠ ',') (h2 : c2 ≠ ']') (h3 : c2 ≠ rbrace) :
    matchSuf (.optSuf c2) r = some r := by
  cases r with
  | nil => rfl
  | cons c cs =>
    rcases isStopC_cases c h with rfl | rfl | rfl
    · simp only [matchSuf]
      rw [if_neg]
      intro hx
      exact h1 (by rw [← hx]; rfl)
    · simp only [matchSuf]
      rw [if_neg]
      intro hx
      exact h2 (by rw [← hx]; rfl)
    · simp only [matchSuf]
      rw [if_neg]
      intro hx
      exact h3 (by rw [← hx]; rfl)

theorem pickLonger_none_left {α : Type} (b : Option (α × Chars)) :
    pickLonger none b = b := by
  cases b <;> rfl

theorem pickLonger_none_right {α : Type} (a : Option (α × Chars)) :
    pickLonger a none = a := by
  cases a <;> rfl

theorem pickLonger_lt {α : Type} (x y : α × Chars) (h : y.2.length < x.2.length) :
    pickLonger (some x) (some y) = some y := by
  simp [pickLonger, h]

theorem pickLonger_ge {α : Type} (x y : α × Chars) (h : ¬ y.2.length < x.2.length) :
    pickLonger (some x) (some y) = some x := by
  simp [pickLonger, h]

/-- Models `STR_Number` on a printed `TAG_Int`. -/
theorem STR_Number_printed_int (n : Int) (r : Chars) (h : stopsB r = true) :
    STR_Number (pyIntChars n ++ r) = some (.TAG_Int n, r) := by
  have hbd : intBdB r = true := stops_intBd r h
  have hdig : headIs isDigitC r = false := intBdB_not_digit r hbd
  have hb : matchIntNum (.reqSuf 'b') (pyIntChars n ++ r) = none := by
    rw [matchIntNum_printed_core _ _ _ hdig,
      matchSuf_req_stop 'b' r h (by decide) (by decide) (by decide)]
  have hs : matchIntNum (.reqSuf 's') (pyIntChars n ++ r) = none := by
    rw [matchIntNum_printed_core _ _ _ hdig,
      matchSuf_req_stop 's' r h (by decide) (by decide) (by decide)]
  have hl : matchIntNum (.reqSuf 'l') (pyIntChars n ++ r) = none := by
    rw [matchIntNum_printed_core _ _ _ hdig,
      matchSuf_req_stop 'l' r h (by decide) (by decide) (by decide)]
  have hi : matchIntNum .noSuf (pyIntChars n ++ r) = some (n, r) := by
    rw [matchIntNum_printed_core _ _ _ hdig]
    rfl
  have hf : matchFloatNum (.reqSuf 'f') (pyIntChars n ++ r) = none := by
    rw [matchFloatNum_on_int_printed _ _ _ hbd,
      matchSuf_req_stop 'f' r h (by decide) (by decide) (by decide)]
  have hd : matchFloatNum (.optSuf 'd') (pyIntChars n ++ r)
      = some (floatVal (decide (n < 0)) n.natAbs 0 0 0, r) := by
    rw [matchFloatNum_on_int_printed _ _ _ hbd,
      matchSuf_opt_stop 'd' r h (by decide) (by decide) (by decide)]
  unfold STR_Number
  simp [hb, hs, hi, hl, hf, hd, pickLonger]

/-- Models `STR_Number` on a printed suffixed integer: the suffixed alternative
wins the longest match. -/
theorem STR_Number_printed_byte (n : Int) (r : Chars) (h : stopsB r = true) :
    STR_Number (pyIntChars n ++ 'b' :: r) = some (.TAG_Byte n, r) := by
  have hdig : headIs isDigitC ('b' :: r) = false := rfl
  have hbd : intBdB ('b' :: r) = true := rfl
  have hb : matchIntNum (.reqSuf 'b') (pyIntChars n ++ 'b' :: r) = some (n, r) := by
    rw [matchIntNum_printed_core _ _ _ hdig]
    rfl
  have hs : matchIntNum (.reqSuf 's') (pyIntChars n ++ 'b' :: r) = none := by
    rw [matchIntNum_printed_core _ _ _ hdig]
    rfl
  have hl : matchIntNum (.reqSuf 'l') (pyIntChars n ++ 'b' :: r) = none := by
    rw [matchIntNum_printed_core _ _ _ hdig]
    rfl
  have hi : matchIntNum .noSuf (pyIntChars n ++ 'b' :: r) = some (n, 'b' :: r) := by
    rw [matchIntNum_printed_core _ _ _ hdig]
    rfl
  have hf : matchFloatNum (.reqSuf 'f') (pyIntChars n ++ 'b' :: r) = none := by
    rw [matchFloatNum_on_int_printed _ _ _ hbd]
    rfl
  have hd : matchFloatNum (.optSuf 'd') (pyIntChars n ++ 'b' :: r)
      = some (floatVal (decide (n < 0)) n.natAbs 0 0 0, 'b' :: r) := by
    rw [matchFloatNum_on_int_printed _ _ _ hbd]
    rfl
  unfold STR_Number
  simp [hb, hs, hi, hl, hf, hd, pickLonger]

theorem STR_Number_printed_short (n : Int) (r : Chars) (h : stopsB r = true) :
    STR_Number (pyIntChars n ++ 's' :: r) = some (.TAG_Short n, r) := by
  have hdig : headIs isDigitC ('s' :: r) = false := rfl
  have hbd : intBdB ('s' :: r) = true := rfl
  have hb : matchIntNum (.reqSuf 'b') (pyIntChars n ++ 's' :: r) = none := by
    rw [matchIntNum_printed_core _ _ _ hdig]
    rfl
  have hs : matchIntNum (.reqSuf 's') (pyIntChars n ++ 's' :: r) = some (n, r) := by
    rw [matchIntNum_printed_core _ _ _ hdig]
    rfl
  have hl : matchIntNum (.reqSuf 'l') (pyIntChars n ++ 's' :: r) = none := by
    rw [matchIntNum_printed_core _ _ _ hdig]
    rfl
  have hi : matchIntNum .noSuf (pyIntChars n ++ 's' :: r) = some (n, 's' :: r) := by
    rw [matchIntNum_printed_core _ _ _ hdig]
    rfl
  have hf : matchFloatNum (.reqSuf 'f') (pyIntChars n ++ 's' :: r) = none := by
    rw [matchFloatNum_on_int_printed _ _ _ hbd]
    rfl
  have hd : matchFloatNum (.optSuf 'd') (pyIntChars n ++ 's' :: r)
      = some (floatVal (decide (n < 0)) n.natAbs 0 0 0, 's' :: r) := by
    rw [matchFloatNum_on_int_printed _ _ _ hbd]
    rfl
  unfold STR_Number
  simp [hb, hs, hi, hl, hf, hd, pickLonger]

theorem STR_Number_printed_long (n : Int) (r : Chars) (h : stopsB r = true) :
    STR_Number (pyIntChars n ++ 'l' :: r) = some (.TAG_Long n, r) := by
  have hdig : headIs isDigitC ('l' :: r) = false := rfl
  have hbd : intBdB ('l' :: r) = true := rfl
  have hb : matchIntNum (.reqSuf 'b') (pyIntChars n ++ 'l' :: r) = none := by
    rw [matchIntNum_printed_core _ _ _ hdig]
    rfl
  have hs : matchIntNum (.reqSuf 's') (pyIntChars n ++ 'l' :: r) = none := by
    rw [matchIntNum_printed_core _ _ _ hdig]
    rfl
  have hl : matchIntNum (.reqSuf 'l') (pyIntChars n ++ 'l' :: r) = some (n, r) := by
    rw [matchIntNum_printed_core _ _ _ hdig]
    rfl
  have hi : matchIntNum .noSuf (pyIntChars n ++ 'l' :: r) = some (n, 'l' :: r) := by
    rw [matchIntNum_printed_core _ _ _ hdig]
    rfl
  have hf : matchFloatNum (.reqSuf 'f') (pyIntChars n ++ 'l' :: r) = none := by
    rw [matchFloatNum_on_int_printed _ _ _ hbd]
    rfl
  have hd : matchFloatNum (.optSuf 'd') (pyIntChars n ++ 'l' :: r)
      = some (floatVal (decide (n < 0)) n.natAbs 0 0 0, 'l' :: r) := by
    rw [matchFloatNum_on_int_printed _ _ _ hbd]
    rfl
  unfold STR_Number
  simp [hb, hs, hi, hl, hf, hd, pickLonger]

/-- Models `STR_Number` on a printed `TAG_Float`: `1.0f` beats the `Int` prefix
match `1`. -/
theorem STR_Number_printed_float (q : Rat) (hq : IsDec q) (hfd : FiniteDbl q)
    (r : Chars) (h : stopsB r = true) :
    STR_Number (pyFloatChars q ++ 'f' :: r) = some (.TAG_Float (.finite q), r) := by
  have hbd : numBdB ('f' :: r) = true := rfl
  obtain ⟨v, rest1, hi, hlen⟩ := (matchIntNum_on_float_printed .noSuf q hq ('f' :: r) hbd).2 rfl
  have hb := (matchIntNum_on_float_printed (.reqSuf 'b') q hq ('f' :: r) hbd).1 'b' rfl
    (by decide)
  have hs := (matchIntNum_on_float_printed (.reqSuf 's') q hq ('f' :: r) hbd).1 's' rfl
    (by decide)
  have hl := (matchIntNum_on_float_printed (.reqSuf 'l') q hq ('f' :: r) hbd).1 'l' rfl
    (by decide)
  have hf : matchFloatNum (.reqSuf 'f') (pyFloatChars q ++ 'f' :: r) =
      some (.finite q, r) := by
    rw [matchFloatNum_printed_core _ _ hq hfd _ hbd]
    rfl
  have hd : matchFloatNum (.optSuf 'd') (pyFloatChars q ++ 'f' :: r) =
      some (.finite q, 'f' :: r) := by
    rw [matchFloatNum_printed_core _ _ hq hfd _ hbd]
    rfl
  unfold STR_Number
  simp only [hb, hs, hi, hl, hf, hd, Option.map_some', Option.map_none']
  simp only [List.length_cons] at hlen
  rw [pickLonger_none_left, pickLonger_none_left, pickLonger_none_right,
    pickLonger_lt _ _ (by simp only [List.length_cons]; omega),
    pickLonger_ge _ _ (by simp only [List.length_cons]; omega)]

/-- Models `STR_Number` on a printed `TAG_Double`. -/
theorem STR_Number_printed_double (q : Rat) (hq : IsDec q) (hfd : FiniteDbl q)
    (r : Chars) (h : stopsB r = true) :
    STR_Number (pyFloatChars q ++ 'd' :: r) = some (.TAG_Double (.finite q), r) := by
  have hbd : numBdB ('d' :: r) = true := rfl
  obtain ⟨v, rest1, hi, hlen⟩ := (matchIntNum_on_float_printed .noSuf q hq ('d' :: r) hbd).2 rfl
  have hb := (matchIntNum_on_float_printed (.reqSuf 'b') q hq ('d' :: r) hbd).1 'b' rfl
    (by decide)
  have hs := (matchIntNum_on_float_printed (.reqSuf 's') q hq ('d' :: r) hbd).1 's' rfl
    (by decide)
  have hl := (matchIntNum_on_float_printed (.reqSuf 'l') q hq ('d' :: r) hbd).1 'l' rfl
    (by decide)
  have hf : matchFloatNum (.reqSuf 'f') (pyFloatChars q ++ 'd' :: r) = none := by
    rw [matchFloatNum_printed_core _ _ hq hfd _ hbd]
    rfl
  have hd : matchFloatNum (.optSuf 'd') (pyFloatChars q ++ 'd' :: r) =
      some (.finite q, r) := by
    rw [matchFloatNum_printed_core _ _ hq hfd _ hbd]
    rfl
  unfold STR_Number
  simp only [hb, hs, hi, hl, hf, hd, Option.map_some', Option.map_none']
  simp only [List.length_cons] at hlen
  rw [pickLonger_none_left, pickLonger_none_left, pickLonger_none_right,
    pickLonger_none_right, pickLonger_lt _ _ (by simp only [List.length_cons]; omega)]

/-! ### Failing alternatives on foreign heads -/

theorem scanSign_nosign (c : Char) (cs : Chars) (h1 : c ≠ '-') (h2 : c ≠ '+') :
    scanSign (c :: cs) = (false, c :: cs) := by
  simp [scanSign, h1, h2]

theorem matchIntNum_none (suf : Suf) (s : Chars) (h : nonNumHead (skipWs s) = true) :
    matchIntNum suf s = none := by
  unfold matchIntNum
  cases hr : skipWs s with
  | nil => simp [scanSign, takeWhileCh]
  | cons c cs =>
    rw [hr] at h
    simp [nonNumHead] at h
    simp [scanSign_nosign c cs h.1.2 h.2,
      takeWhileCh_nomatch isDigitC (c :: cs) (by simp [headIs, h.1.1])]

theorem matchFloatNum_none (suf : Suf) (s : Chars) (h : nonNumHead (skipWs s) = true) :
    matchFloatNum suf s = none := by
  unfold matchFloatNum
  cases hr : skipWs s with
  | nil => simp [scanSign, takeWhileCh]
  | cons c cs =>
    rw [hr] at h
    simp [nonNumHead] at h
    simp [scanSign_nosign c cs h.1.2 h.2,
      takeWhileCh_nomatch isDigitC (c :: cs) (by simp [headIs, h.1.1])]

theorem STR_Number_none (s : Chars) (h : nonNumHead (skipWs s) = true) :
    STR_Number s = none := by
  unfold STR_Number
  rw [matchIntNum_none _ _ h, matchIntNum_none _ _ h, matchIntNum_none _ _ h,
    matchIntNum_none _ _ h, matchFloatNum_none _ _ h, matchFloatNum_none _ _ h]
  rfl

/-! ### String alternative -/

theorem takeWhileCh_sound (p : Char → Bool) (s : Chars) :
    ∀ c ∈ (takeWhileCh p s).1, p c = true := by
  induction s with
  | nil => simp [takeWhileCh]
  | cons c cs ih =>
    by_cases hp : p c
    · simp only [takeWhileCh, hp, if_pos]
      intro x hx
      rcases List.mem_cons.mp hx with rfl | hx
      · exact hp
      · exact ih x hx
    · simp [takeWhileCh, hp]

theorem String_mk_data (v : String) : (⟨v.data⟩ : String) = v := rfl

/-- The quoted printed form of any producible string value re-parses. -/
theorem STR_String_printed (v : String) (hv : OkStr v) (r : Chars) :
    STR_String (dquote :: (v.data ++ dquote :: r)) = some (.TAG_String v, r) := by
  have hword : wordAlnums (dquote :: (v.data ++ dquote :: r)) = none := by
    unfold wordAlnums
    rw [skipWs_cons_not dquote _ (by decide)]
    rw [takeWhileCh_nomatch _ _ (by simp [headIs]; decide)]
    rfl
  have hq : quotedString (dquote :: (v.data ++ dquote :: r)) = some (v, r) := by
    unfold quotedString
    rw [skipWs_cons_not dquote _ (by decide)]
    have htake : takeWhileCh notQuoteEnd (v.data ++ dquote :: r) = (v.data, dquote :: r) := by
      apply takeWhileCh_append
      · intro c hc
        obtain ⟨h1, h2, h3⟩ := hv c hc
        simp [notQuoteEnd, h1, h2, h3]
      · simp [headIs, notQuoteEnd]
    simp [htake, String_mk_data]
  rw [STR_String, hword, hq]
  rfl

theorem wordAlnums_none (s : Chars) (h : headIs isAlnumC (skipWs s) = false) :
    wordAlnums s = none := by
  unfold wordAlnums
  rw [takeWhileCh_nomatch _ _ h]
  rfl

theorem quotedString_none (s : Chars) (h : headIs (fun c => c = dquote) (skipWs s) = false) :
    quotedString s = none := by
  unfold quotedString
  cases hr : skipWs s with
  | nil => rfl
  | cons c cs =>
    rw [hr] at h
    simp [headIs] at h
    simp [h]

theorem STR_String_none (s : Chars) (h1 : headIs isAlnumC (skipWs s) = false)
    (h2 : headIs (fun c => c = dquote) (skipWs s) = false) :
    STR_String s = none := by
  rw [STR_String, wordAlnums_none s h1, quotedString_none s h2]
  rfl

/-! ### Literals -/

theorem litCh_yes (c : Char) (s r : Chars) (h : skipWs s = c :: r) : litCh c s = some r := by
  simp [litCh, h]

theorem litCh_no (c x : Char) (s r : Chars) (h : skipWs s = x :: r) (hx : x ≠ c) :
    litCh c s = none := by
  simp [litCh, h, hx]

theorem litCh_nil (c : Char) (s : Chars) (h : skipWs s = []) : litCh c s = none := by
  simp [litCh, h]

theorem joinInts_cons (v : Int) (vs : List Int) :
    joinInts (v :: vs) = pyIntChars v ++ tailJoinInts vs := by
  induction vs generalizing v with
  | nil => simp [joinInts, joinComma, tailJoinInts]
  | cons w ws ih =>
    have h1 : joinInts (v :: w :: ws) = pyIntChars v ++ ',' :: joinInts (w :: ws) := rfl
    rw [h1, ih w, tailJoinInts]

theorem stopsB_tailJoinInts (vs : List Int) (r' : Chars) :
    stopsB (tailJoinInts vs ++ ']' :: r') = true := by
  cases vs with
  | nil => rfl
  | cons v vs => rfl

theorem matchIntNum_ws (suf : Suf) (c : Char) (s : Chars) (h : isWsC c = true) :
    matchIntNum suf (c :: s) = matchIntNum suf s := by
  unfold matchIntNum
  rw [skipWs_cons_ws c s h]

theorem numElemsMore_printed (sufc : Char) (h1 : sufc ≠ ',') (h2 : sufc ≠ ']')
    (h3 : sufc ≠ rbrace) (vs : List Int) :
    ∀ f : Nat, vs.length ≤ f → ∀ r' : Chars,
    numElemsMore sufc f (tailJoinInts vs ++ ']' :: r') = (vs, ']' :: r') := by
  induction vs with
  | nil =>
    intro f _ r'
    cases f with
    | zero => rfl
    | succ g =>
      show numElemsMore sufc (g + 1) (']' :: r') = ([], ']' :: r')
      unfold numElemsMore
      rw [litCh_no ',' ']' _ r' (by rw [skipWs_cons_not ']' _ (by decide)]) (by decide)]
  | cons v vs ih =>
    intro f hf r'
    cases f with
    | zero => simp at hf
    | succ g =>
      have hstep : tailJoinInts (v :: vs) ++ ']' :: r'
          = ',' :: (pyIntChars v ++ (tailJoinInts vs ++ ']' :: r')) := by
        simp [tailJoinInts]
      rw [hstep]
      unfold numElemsMore
      have hlit : litCh ',' (',' :: (pyIntChars v ++ (tailJoinInts vs ++ ']' :: r')))
          = some (pyIntChars v ++ (tailJoinInts vs ++ ']' :: r')) :=
        litCh_yes _ _ _ (by rw [skipWs_cons_not ',' _ (by decide)])
      have hrest : stopsB (tailJoinInts vs ++ ']' :: r') = true := stopsB_tailJoinInts vs r'
      have helem : matchIntNum (.optSuf sufc) (pyIntChars v ++ (tailJoinInts vs ++ ']' :: r'))
          = some (v, tailJoinInts vs ++ ']' :: r') := by
        rw [matchIntNum_printed_core _ _ _ (intBdB_not_digit _ (stops_intBd _ hrest)),
          matchSuf_opt_stop sufc _ hrest h1 h2 h3]
      rw [hlit]
      simp only [helem, ih g (by simpa using hf) r']

theorem numElems_printed (sufc : Char) (h1 : sufc ≠ ',') (h2 : sufc ≠ ']')
    (h3 : sufc ≠ rbrace) (v : Int) (vs : List Int) (f : Nat) (hf : vs.length ≤ f)
    (r' : Chars) :
    numElems sufc f (joinInts (v :: vs) ++ ']' :: r') = some (v :: vs, ']' :: r') := by
  unfold numElems
  rw [joinInts_cons, List.append_assoc]
  have hrest : stopsB (tailJoinInts vs ++ ']' :: r') = true := stopsB_tailJoinInts vs r'
  have helem : matchIntNum (.optSuf sufc) (pyIntChars v ++ (tailJoinInts vs ++ ']' :: r'))
      = some (v, tailJoinInts vs ++ ']' :: r') := by
    rw [matchIntNum_printed_core _ _ _ (intBdB_not_digit _ (stops_intBd _ hrest)),
      matchSuf_opt_stop sufc _ hrest h1 h2 h3]
  simp only [helem, numElemsMore_printed sufc h1 h2 h3 vs f hf r']

/-! ### Heads of printed forms -/

theorem pyIntChars_head (n : Int) :
    ∃ c cs, pyIntChars n = c :: cs ∧ (isDigitC c = true ∨ c = '-') := by
  by_cases hneg : n < 0
  · exact ⟨'-', natDigits n.natAbs, by simp [pyIntChars, hneg], Or.inr rfl⟩
  · obtain ⟨c, cs, hD, hc⟩ := natDigits_head_digit n.natAbs
    exact ⟨c, cs, by simp [pyIntChars, hneg, hD], Or.inl hc⟩

theorem pyFloatChars_head (q : Rat) (hq : IsDec q) :
    ∃ c cs, pyFloatChars q = c :: cs ∧ (isDigitC c = true ∨ c = '-') := by
  obtain ⟨A, B, hform, hAne, hBne, hAdig, hBdig, hval⟩ := pyFloatChars_struct q hq
  obtain ⟨a, as, hA⟩ := List.exists_cons_of_ne_nil hAne
  have ha : isDigitC a = true := hAdig a (by rw [hA]; simp)
  by_cases hneg : q.num < 0
  · refine ⟨'-', A ++ '.' :: B, ?_, Or.inr rfl⟩
    rw [hform, if_pos hneg]
    simp
  · refine ⟨a, as ++ '.' :: B, ?_, Or.inl ha⟩
    rw [hform, if_neg hneg, hA]
    simp

/-- Every printed producible tag starts with a digit, a minus sign, a
quote, an opening bracket or an opening brace. -/
theorem nbt2strChars_head (t : Tag) (hp : Producible t) :
    ∃ c cs, nbt2strChars t = c :: cs ∧
      (isDigitC c = true ∨ c = '-' ∨ c = dquote ∨ c = '[' ∨ c = lbrace) := by
  cases hp with
  | byte v =>
    obtain ⟨c, cs, h, hc⟩ := pyIntChars_head v
    exact ⟨c, cs ++ ['b'], by simp [nbt2strChars, h], by tauto⟩
  | short v =>
    obtain ⟨c, cs, h, hc⟩ := pyIntChars_head v
    exact ⟨c, cs ++ ['s'], by simp [nbt2strChars, h], by tauto⟩
  | int v =>
    obtain ⟨c, cs, h, hc⟩ := pyIntChars_head v
    exact ⟨c, cs, by simp [nbt2strChars, h], by tauto⟩
  | long v =>
    obtain ⟨c, cs, h, hc⟩ := pyIntChars_head v
    exact ⟨c, cs ++ ['l'], by simp [nbt2strChars, h], by tauto⟩
  | float v hdec hfd =>
    obtain ⟨c, cs, h, hc⟩ := pyFloatChars_head v hdec
    exact ⟨c, cs ++ ['f'], by simp [nbt2strChars, pyFloatStr, h], by tauto⟩
  | double v hdec hfd =>
    obtain ⟨c, cs, h, hc⟩ := pyFloatChars_head v hdec
    exact ⟨c, cs ++ ['d'], by simp [nbt2strChars, pyFloatStr, h], by tauto⟩
  | str v hok => exact ⟨dquote, v.data ++ [dquote], rfl, by tauto⟩
  | byteArr v vs hrange =>
    exact ⟨'[', 'B' :: ';' :: ' ' :: (joinInts (v :: vs) ++ [']']), rfl, by tauto⟩
  | intArr v vs =>
    exact ⟨'[', 'I' :: ';' :: ' ' :: (joinInts (v :: vs) ++ [']']), rfl, by tauto⟩
  | longArr v vs =>
    exact ⟨'[', 'L' :: ';' :: ' ' :: (joinInts (v :: vs) ++ [']']), rfl, by tauto⟩
  | list t ts hpt hpts =>
    exact ⟨'[', joinTags (t :: ts) ++ [']'], rfl, by tauto⟩
  | compound es hoks hps =>
    exact ⟨lbrace, joinEnts es ++ [rbrace], rfl, by tauto⟩

theorem printedHead_not_ws (c : Char)
    (h : isDigitC c = true ∨ c = '-' ∨ c = dquote ∨ c = '[' ∨ c = lbrace) :
    isWsC c = false := by
  rcases h with h | rfl | rfl | rfl | rfl
  · exact isDigitC_not_ws c h
  all_goals decide

theorem printedHead_nonNum_of_bracketish (c : Char) (s : Chars)
    (h : c = dquote ∨ c = '[' ∨ c = lbrace) :
    nonNumHead (c :: s) = true := by
  rcases h with rfl | rfl | rfl <;> rfl

theorem joinTags_eq (t : Tag) (ts : List Tag) :
    joinTags (t :: ts) = nbt2strChars t ++ tailJoinTags ts := by
  cases ts with
  | nil => simp [joinTags, tailJoinTags]
  | cons u us =>
    have h1 : joinTags (t :: u :: us) = nbt2strChars t ++ ',' :: joinTags (u :: us) := rfl
    rw [h1]
    have h2 : tailJoinTags (u :: us) = ',' :: (nbt2strChars u ++ tailJoinTags us) := rfl
    rw [h2]
    have h3 : joinTags (u :: us) = nbt2strChars u ++ tailJoinTags us := joinTags_eq u us
    rw [h3]

theorem joinEnts_eq (n : String) (t : Tag) (es : List (String × Tag)) :
    joinEnts ((n, t) :: es) = entChars n t ++ tailJoinEnts es := by
  cases es with
  | nil => simp [joinEnts, tailJoinEnts, entChars]
  | cons e es' =>
    obtain ⟨n', t'⟩ := e
    have h1 : joinEnts ((n, t) :: (n', t') :: es')
        = entChars n t ++ ',' :: joinEnts ((n', t') :: es') := rfl
    rw [h1]
    have h2 : tailJoinEnts ((n', t') :: es') = ',' :: (entChars n' t' ++ tailJoinEnts es') := rfl
    rw [h2]
    have h3 : joinEnts ((n', t') :: es') = entChars n' t' ++ tailJoinEnts es' :=
      joinEnts_eq n' t' es'
    rw [h3]

theorem stopsB_tailJoinTags (ts : List Tag) (r' : Chars) :
    stopsB (tailJoinTags ts ++ ']' :: r') = true := by
  cases ts with
  | nil => rfl
  | cons t ts => rfl

theorem stopsB_tailJoinEnts (es : List (String × Tag)) (r' : Chars) :
    stopsB (tailJoinEnts es ++ rbrace :: r') = true := by
  cases es with
  | nil => rfl
  | cons e es => obtain ⟨n, t⟩ := e; rfl

/-- Models `ZeroOrMore(',' STR_TAG)` consumes exactly the printed comma-tail. -/
theorem tagElemsMore_printed (ts : List Tag)
    (hIH : ∀ u ∈ ts, ReParses u) :
    ∀ g r', 4 * (tailJoinTags ts).length + 4 ≤ g →
      tagElemsMore g (tailJoinTags ts ++ ']' :: r') = .ok (ts, ']' :: r') := by
  induction ts with
  | nil =>
    intro g r' hg
    obtain ⟨g', rfl⟩ : ∃ g', g = g' + 1 := ⟨g - 1, by omega⟩
    show tagElemsMore (g' + 1) (']' :: r') = .ok ([], ']' :: r')
    unfold tagElemsMore
    rw [litCh_no ',' ']' _ r' (by rw [skipWs_cons_not ']' _ (by decide)]) (by decide)]
  | cons u us ih =>
    intro g r' hg
    obtain ⟨g', rfl⟩ : ∃ g', g = g' + 1 := ⟨g - 1, by omega⟩
    have hstep : tailJoinTags (u :: us) ++ ']' :: r'
        = ',' :: (nbt2strChars u ++ (tailJoinTags us ++ ']' :: r')) := by
      simp [tailJoinTags]
    rw [hstep]
    unfold tagElemsMore
    rw [litCh_yes ',' _ _ (by rw [skipWs_cons_not ',' _ (by decide)])]
    have hlens : (tailJoinTags (u :: us)).length
        = 1 + (nbt2strChars u).length + (tailJoinTags us).length := by
      simp [tailJoinTags]
      omega
    have helem : STR_TAG g' (nbt2strChars u ++ (tailJoinTags us ++ ']' :: r'))
        = .ok (u, tailJoinTags us ++ ']' :: r') :=
      hIH u (by simp) g' _ (stopsB_tailJoinTags us r') (by omega)
    have hrec := ih (fun v hv => hIH v (by simp [hv])) g' r' (by omega)
    simp only [helem, hrec]

/-- Models `delimitedList(STR_TAG)` consumes exactly the printed list body. -/
theorem tagElems_printed (t : Tag) (ts : List Tag)
    (hIHt : ReParses t) (hIH : ∀ u ∈ ts, ReParses u) :
    ∀ g r', 4 * (joinTags (t :: ts)).length + 8 ≤ g →
      tagElems g (joinTags (t :: ts) ++ ']' :: r') = .ok (t :: ts, ']' :: r') := by
  intro g r' hg
  obtain ⟨g', rfl⟩ : ∃ g', g = g' + 1 := ⟨g - 1, by omega⟩
  rw [joinTags_eq, List.append_assoc]
  unfold tagElems
  have hlens : (joinTags (t :: ts)).length
      = (nbt2strChars t).length + (tailJoinTags ts).length := by
    rw [joinTags_eq]
    simp
  have helem : STR_TAG g' (nbt2strChars t ++ (tailJoinTags ts ++ ']' :: r'))
      = .ok (t, tailJoinTags ts ++ ']' :: r') :=
    hIHt g' _ (stopsB_tailJoinTags ts r') (by omega)
  simp only [helem, tagElemsMore_printed ts hIH g' r' (by omega)]

/-- A printed compound entry re-parses as its (key, value) pair. -/
theorem kvEntry_printed (n : String) (t : Tag) (hok : OkStr n) (hIHt : ReParses t) :
    ∀ g r', stopsB r' = true → 4 * (entChars n t).length + 4 ≤ g →
      kvEntry g (entChars n t ++ r') = .ok ((.TAG_String n, t), r') := by
  intro g r' hr' hg
  obtain ⟨g', rfl⟩ : ∃ g', g = g' + 1 := ⟨g - 1, by omega⟩
  have hlen : (entChars n t).length = n.data.length + 3 + (nbt2strChars t).length := by
    simp [entChars]
    omega
  have hform : entChars n t ++ r' = dquote :: (n.data ++ dquote :: (':' :: (nbt2strChars t ++ r'))) := by
    simp [entChars]
  rw [hform]
  unfold kvEntry
  have hstr : STR_String (dquote :: (n.data ++ dquote :: (':' :: (nbt2strChars t ++ r'))))
      = some (.TAG_String n, ':' :: (nbt2strChars t ++ r')) :=
    STR_String_printed n hok _
  have hcol : litCh ':' (':' :: (nbt2strChars t ++ r')) = some (nbt2strChars t ++ r') :=
    litCh_yes _ _ _ (by rw [skipWs_cons_not ':' _ (by decide)])
  have hval : STR_TAG g' (nbt2strChars t ++ r') = .ok (t, r') := hIHt g' r' hr' (by omega)
  simp only [hstr, hcol, hval]

/-- Models `ZeroOrMore(',' kv)` consumes exactly the printed entry comma-tail. -/
theorem kvSeqMore_printed (es : List (String × Tag))
    (hoks : ∀ e ∈ es, OkStr e.1) (hIH : ∀ e ∈ es, ReParses e.2) :
    ∀ g r', 4 * (tailJoinEnts es).length + 4 ≤ g →
      kvSeqMore g (tailJoinEnts es ++ rbrace :: r')
        = .ok (es.map (fun e => (Tag.TAG_String e.1, e.2)), rbrace :: r') := by
  induction es with
  | nil =>
    intro g r' hg
    obtain ⟨g', rfl⟩ : ∃ g', g = g' + 1 := ⟨g - 1, by omega⟩
    show kvSeqMore (g' + 1) (rbrace :: r') = .ok ([], rbrace :: r')
    unfold kvSeqMore
    rw [litCh_no ',' rbrace _ r' (by rw [skipWs_cons_not rbrace _ (by decide)]) (by decide)]
  | cons e es ih =>
    obtain ⟨n, t⟩ := e
    intro g r' hg
    obtain ⟨g', rfl⟩ : ∃ g', g = g' + 1 := ⟨g - 1, by omega⟩
    have hstep : tailJoinEnts ((n, t) :: es) ++ rbrace :: r'
        = ',' :: (entChars n t ++ (tailJoinEnts es ++ rbrace :: r')) := by
      simp [tailJoinEnts]
    rw [hstep]
    unfold kvSeqMore
    rw [litCh_yes ',' _ _ (by rw [skipWs_cons_not ',' _ (by decide)])]
    have hlens : (tailJoinEnts ((n, t) :: es)).length
        = 1 + (entChars n t).length + (tailJoinEnts es).length := by
      simp [tailJoinEnts]
      omega
    have hent : kvEntry g' (entChars n t ++ (tailJoinEnts es ++ rbrace :: r'))
        = .ok ((.TAG_String n, t), tailJoinEnts es ++ rbrace :: r') :=
      kvEntry_printed n t (hoks (n, t) (by simp)) (hIH (n, t) (by simp)) g' _
        (stopsB_tailJoinEnts es r') (by omega)
    have hrec := ih (fun e he => hoks e (by simp [he])) (fun e he => hIH e (by simp [he]))
      g' r' (by omega)
    simp only [hent, hrec, List.map_cons]

/-- Models `kv_seq` consumes exactly the printed compound body. -/
theorem kvSeq_printed (n : String) (t : Tag) (es : List (String × Tag))
    (hok : OkStr n) (hIHt : ReParses t)
    (hoks : ∀ e ∈ es, OkStr e.1) (hIH : ∀ e ∈ es, ReParses e.2) :
    ∀ g r', 4 * (joinEnts ((n, t) :: es)).length + 8 ≤ g →
      kvSeq g (joinEnts ((n, t) :: es) ++ rbrace :: r')
        = .ok (((n, t) :: es).map (fun e => (Tag.TAG_String e.1, e.2)), rbrace :: r') := by
  intro g r' hg
  obtain ⟨g', rfl⟩ : ∃ g', g = g' + 1 := ⟨g - 1, by omega⟩
  rw [joinEnts_eq, List.append_assoc]
  unfold kvSeq
  have hlens : (joinEnts ((n, t) :: es)).length
      = (entChars n t).length + (tailJoinEnts es).length := by
    rw [joinEnts_eq]
    simp
  have hent : kvEntry g' (entChars n t ++ (tailJoinEnts es ++ rbrace :: r'))
      = .ok ((.TAG_String n, t), tailJoinEnts es ++ rbrace :: r') :=
    kvEntry_printed n t hok hIHt g' _ (stopsB_tailJoinEnts es r') (by omega)
  simp only [hent, kvSeqMore_printed es hoks hIH g' r' (by omega), List.map_cons]

theorem make_tag_compound_pairs (es : List (String × Tag)) :
    make_tag_compound (es.map (fun e => (Tag.TAG_String e.1, e.2))) = .TAG_Compound es := by
  unfold make_tag_compound
  rw [List.map_map]
  congr 1
  induction es with
  | nil => rfl
  | cons e es ih =>
    rw [List.map_cons, ih]
    rfl

/-! ### MatchFirst fallthrough helpers -/

theorem orElseR_fail (b : Unit → Except PErr (Tag × Chars)) :
    orElseR (.error .parseFail) b = b () := rfl

theorem orElseR_ok (x : Tag × Chars) (b : Unit → Except PErr (Tag × Chars)) :
    orElseR (.ok x) b = .ok x := rfl

theorem STR_NumArray_fail1 (tc : Char) (f : Nat) (s : Chars) (x : Char) (xs : Chars)
    (h : skipWs s = x :: xs) (hx : x ≠ '[') :
    STR_NumArray tc f s = .error .parseFail := by
  unfold STR_NumArray matchNumList
  rw [litCh_no '[' x s xs h hx]

theorem STR_NumArray_fail2 (tc : Char) (f : Nat) (s : Chars) (rest : Chars) (x : Char)
    (xs : Chars) (h : skipWs s = '[' :: rest) (h2 : skipWs rest = x :: xs) (hx : x ≠ tc) :
    STR_NumArray tc f s = .error .parseFail := by
  unfold STR_NumArray matchNumList
  simp only [litCh_yes '[' s rest h, litCh_no tc x rest xs h2 hx]

theorem STR_List_fail1 (f : Nat) (s : Chars) (x : Char) (xs : Chars)
    (h : skipWs s = x :: xs) (hx : x ≠ '[') :
    STR_List (f + 1) s = .error .parseFail := by
  unfold STR_List
  rw [litCh_no '[' x s xs h hx]

theorem printedHead_ne_typecode (c : Char)
    (h : isDigitC c = true ∨ c = '-' ∨ c = dquote ∨ c = '[' ∨ c = lbrace) :
    c ≠ 'B' ∧ c ≠ 'I' ∧ c ≠ 'L' := by
  rcases h with h | rfl | rfl | rfl | rfl
  · refine ⟨?_, ?_, ?_⟩ <;> rintro rfl <;> exact absurd h (by decide)
  all_goals exact ⟨by decide, by decide, by decide⟩

theorem tailJoinInts_len (vs : List Int) : vs.length ≤ (tailJoinInts vs).length := by
  induction vs with
  | nil => simp [tailJoinInts]
  | cons v vs ih =>
    simp only [tailJoinInts, List.length_cons, List.length_append]
    omega

theorem List_all_byte (v : Int) (vs : List Int) (h : ∀ x ∈ v :: vs, 0 ≤ x ∧ x < 256) :
    (v :: vs).all (fun x => 0 ≤ x && x < 256) = true := by
  rw [List.all_eq_true]
  intro x hx
  obtain ⟨h1, h2⟩ := h x hx
  simp only [Bool.and_eq_true, decide_eq_true_eq]
  exact ⟨h1, h2⟩

theorem numElems_ws (sufc : Char) (f : Nat) (c : Char) (s : Chars) (h : isWsC c = true) :
    numElems sufc f (c :: s) = numElems sufc f s := by
  unfold numElems
  rw [matchIntNum_ws _ c s h]

/-- The printed numeric-array form re-parses through `matchNumList`. -/
theorem matchNumList_printed (tc : Char) (htc1 : isWsC tc = false)
    (htc2 : tc.toLower ≠ ',') (htc3 : tc.toLower ≠ ']') (htc4 : tc.toLower ≠ rbrace)
    (v : Int) (vs : List Int) (f : Nat) (hf : vs.length ≤ f) (r : Chars) :
    matchNumList tc f ('[' :: tc :: ';' :: ' ' :: (joinInts (v :: vs) ++ ']' :: r))
      = some (v :: vs, r) := by
  unfold matchNumList
  have lit1 : litCh '[' ('[' :: tc :: ';' :: ' ' :: (joinInts (v :: vs) ++ ']' :: r))
      = some (tc :: ';' :: ' ' :: (joinInts (v :: vs) ++ ']' :: r)) :=
    litCh_yes _ _ _ (by rw [skipWs_cons_not '[' _ (by decide)])
  have lit2 : litCh tc (tc :: ';' :: ' ' :: (joinInts (v :: vs) ++ ']' :: r))
      = some (';' :: ' ' :: (joinInts (v :: vs) ++ ']' :: r)) :=
    litCh_yes _ _ _ (by rw [skipWs_cons_not tc _ htc1])
  have lit3 : litCh ';' (';' :: ' ' :: (joinInts (v :: vs) ++ ']' :: r))
      = some (' ' :: (joinInts (v :: vs) ++ ']' :: r)) :=
    litCh_yes _ _ _ (by rw [skipWs_cons_not ';' _ (by decide)])
  have hnum : numElems tc.toLower f (' ' :: (joinInts (v :: vs) ++ ']' :: r))
      = some (v :: vs, ']' :: r) := by
    rw [numElems_ws _ _ ' ' _ (by decide)]
    exact numElems_printed tc.toLower htc2 htc3 htc4 v vs f hf r
  have lit4 : litCh ']' (']' :: r) = some r :=
    litCh_yes _ _ _ (by rw [skipWs_cons_not ']' _ (by decide)])
  simp only [lit1, lit2, lit3, hnum, lit4]

/-! ### The printed form of a producible tag re-parses -/

theorem printParse (t : Tag) (hp : Producible t) : ReParses t := by
  induction hp with
  | byte v =>
    intro f r hr hf
    obtain ⟨f', rfl⟩ : ∃ f', f = f' + 1 := ⟨f - 1, by omega⟩
    show STR_TAG (f' + 1) ((pyIntChars v ++ ['b']) ++ r) = .ok (.TAG_Byte v, r)
    have harr : (pyIntChars v ++ ['b']) ++ r = pyIntChars v ++ 'b' :: r := by simp
    rw [harr]
    unfold STR_TAG
    rw [STR_Number_printed_byte v r hr]
  | short v =>
    intro f r hr hf
    obtain ⟨f', rfl⟩ : ∃ f', f = f' + 1 := ⟨f - 1, by omega⟩
    show STR_TAG (f' + 1) ((pyIntChars v ++ ['s']) ++ r) = .ok (.TAG_Short v, r)
    have harr : (pyIntChars v ++ ['s']) ++ r = pyIntChars v ++ 's' :: r := by simp
    rw [harr]
    unfold STR_TAG
    rw [STR_Number_printed_short v r hr]
  | int v =>
    intro f r hr hf
    obtain ⟨f', rfl⟩ : ∃ f', f = f' + 1 := ⟨f - 1, by omega⟩
    show STR_TAG (f' + 1) (pyIntChars v ++ r) = .ok (.TAG_Int v, r)
    unfold STR_TAG
    rw [STR_Number_printed_int v r hr]
  | long v =>
    intro f r hr hf
    obtain ⟨f', rfl⟩ : ∃ f', f = f' + 1 := ⟨f - 1, by omega⟩
    show STR_TAG (f' + 1) ((pyIntChars v ++ ['l']) ++ r) = .ok (.TAG_Long v, r)
    have harr : (pyIntChars v ++ ['l']) ++ r = pyIntChars v ++ 'l' :: r := by simp
    rw [harr]
    unfold STR_TAG
    rw [STR_Number_printed_long v r hr]
  | float v hdec hfd =>
    intro f r hr hf
    obtain ⟨f', rfl⟩ : ∃ f', f = f' + 1 := ⟨f - 1, by omega⟩
    show STR_TAG (f' + 1) ((pyFloatChars v ++ ['f']) ++ r) =
      .ok (.TAG_Float (.finite v), r)
    have harr : (pyFloatChars v ++ ['f']) ++ r = pyFloatChars v ++ 'f' :: r := by simp
    rw [harr]
    unfold STR_TAG
    rw [STR_Number_printed_float v hdec hfd r hr]
  | double v hdec hfd =>
    intro f r hr hf
    obtain ⟨f', rfl⟩ : ∃ f', f = f' + 1 := ⟨f - 1, by omega⟩
    show STR_TAG (f' + 1) ((pyFloatChars v ++ ['d']) ++ r) =
      .ok (.TAG_Double (.finite v), r)
    have harr : (pyFloatChars v ++ ['d']) ++ r = pyFloatChars v ++ 'd' :: r := by simp
    rw [harr]
    unfold STR_TAG
    rw [STR_Number_printed_double v hdec hfd r hr]
  | str v hok =>
    intro f r hr hf
    obtain ⟨f', rfl⟩ : ∃ f', f = f' + 1 := ⟨f - 1, by omega⟩
    show STR_TAG (f' + 1) ((dquote :: v.data ++ [dquote]) ++ r) = .ok (.TAG_String v, r)
    have harr : (dquote :: v.data ++ [dquote]) ++ r = dquote :: (v.data ++ dquote :: r) := by
      simp
    rw [harr]
    unfold STR_TAG
    rw [STR_Number_none _ (by rw [skipWs_cons_not dquote _ (by decide)]; rfl)]
    rw [STR_String_printed v hok r]
  | byteArr v vs hrange =>
    intro f r hr hf
    obtain ⟨f', rfl⟩ : ∃ f', f = f' + 1 := ⟨f - 1, by omega⟩
    show STR_TAG (f' + 1)
      (('[' :: 'B' :: ';' :: ' ' :: (joinInts (v :: vs) ++ [']'])) ++ r)
      = .ok (.TAG_Byte_Array (v :: vs), r)
    have harr : ('[' :: 'B' :: ';' :: ' ' :: (joinInts (v :: vs) ++ [']'])) ++ r
        = '[' :: 'B' :: ';' :: ' ' :: (joinInts (v :: vs) ++ ']' :: r) := by simp
    rw [harr]
    have hlen1 : (nbt2strChars (.TAG_Byte_Array (v :: vs))).length
        = (joinInts (v :: vs)).length + 5 := by
      show ('[' :: 'B' :: ';' :: ' ' :: (joinInts (v :: vs) ++ [']'])).length = _
      simp
    have hlen2 : vs.length ≤ (joinInts (v :: vs)).length := by
      rw [joinInts_cons]
      have := tailJoinInts_len vs
      simp only [List.length_append]
      omega
    unfold STR_TAG
    rw [STR_Number_none _ (by rw [skipWs_cons_not '[' _ (by decide)]; rfl)]
    rw [STR_String_none _ (by rw [skipWs_cons_not '[' _ (by decide)]; rfl)
      (by rw [skipWs_cons_not '[' _ (by decide)]; rfl)]
    have hmk : make_tag_array 'B' (v :: vs) = .ok (.TAG_Byte_Array (v :: vs)) := by
      unfold make_tag_array bytearrayOf
      rw [if_pos rfl, if_pos (List_all_byte v vs hrange)]
    have hB : STR_NumArray 'B' f' ('[' :: 'B' :: ';' :: ' ' :: (joinInts (v :: vs) ++ ']' :: r))
        = .ok (.TAG_Byte_Array (v :: vs), r) := by
      unfold STR_NumArray
      simp only [matchNumList_printed 'B' (by decide) (by decide) (by decide) (by decide)
        v vs f' (by omega) r, hmk]
    rw [hB, orElseR_ok]
  | intArr v vs =>
    intro f r hr hf
    obtain ⟨f', rfl⟩ : ∃ f', f = f' + 1 := ⟨f - 1, by omega⟩
    show STR_TAG (f' + 1)
      (('[' :: 'I' :: ';' :: ' ' :: (joinInts (v :: vs) ++ [']'])) ++ r)
      = .ok (.TAG_Int_Array (v :: vs), r)
    have harr : ('[' :: 'I' :: ';' :: ' ' :: (joinInts (v :: vs) ++ [']'])) ++ r
        = '[' :: 'I' :: ';' :: ' ' :: (joinInts (v :: vs) ++ ']' :: r) := by simp
    rw [harr]
    have hlen1 : (nbt2strChars (.TAG_Int_Array (v :: vs))).length
        = (joinInts (v :: vs)).length + 5 := by
      show ('[' :: 'I' :: ';' :: ' ' :: (joinInts (v :: vs) ++ [']'])).length = _
      simp
    have hlen2 : vs.length ≤ (joinInts (v :: vs)).length := by
      rw [joinInts_cons]
      have := tailJoinInts_len vs
      simp only [List.length_append]
      omega
    unfold STR_TAG
    rw [STR_Number_none _ (by rw [skipWs_cons_not '[' _ (by decide)]; rfl)]
    rw [STR_String_none _ (by rw [skipWs_cons_not '[' _ (by decide)]; rfl)
      (by rw [skipWs_cons_not '[' _ (by decide)]; rfl)]
    rw [STR_NumArray_fail2 'B' f' _ _ 'I' _ (by rw [skipWs_cons_not '[' _ (by decide)])
      (by rw [skipWs_cons_not 'I' _ (by decide)]) (by decide), orElseR_fail]
    have hmk : make_tag_array 'I' (v :: vs) = .ok (.TAG_Int_Array (v :: vs)) := by
      unfold make_tag_array
      rw [if_neg (by decide), if_pos rfl]
    have hI : STR_NumArray 'I' f' ('[' :: 'I' :: ';' :: ' ' :: (joinInts (v :: vs) ++ ']' :: r))
        = .ok (.TAG_Int_Array (v :: vs), r) := by
      unfold STR_NumArray
      simp only [matchNumList_printed 'I' (by decide) (by decide) (by decide) (by decide)
        v vs f' (by omega) r, hmk]
    rw [hI, orElseR_ok]
  | longArr v vs =>
    intro f r hr hf
    obtain ⟨f', rfl⟩ : ∃ f', f = f' + 1 := ⟨f - 1, by omega⟩
    show STR_TAG (f' + 1)
      (('[' :: 'L' :: ';' :: ' ' :: (joinInts (v :: vs) ++ [']'])) ++ r)
      = .ok (.TAG_Long_Array (v :: vs), r)
    have harr : ('[' :: 'L' :: ';' :: ' ' :: (joinInts (v :: vs) ++ [']'])) ++ r
        = '[' :: 'L' :: ';' :: ' ' :: (joinInts (v :: vs) ++ ']' :: r) := by simp
    rw [harr]
    have hlen1 : (nbt2strChars (.TAG_Long_Array (v :: vs))).length
        = (joinInts (v :: vs)).length + 5 := by
      show ('[' :: 'L' :: ';' :: ' ' :: (joinInts (v :: vs) ++ [']'])).length = _
      simp
    have hlen2 : vs.length ≤ (joinInts (v :: vs)).length := by
      rw [joinInts_cons]
      have := tailJoinInts_len vs
      simp only [List.length_append]
      omega
    unfold STR_TAG
    rw [STR_Number_none _ (by rw [skipWs_cons_not '[' _ (by decide)]; rfl)]
    rw [STR_String_none _ (by rw [skipWs_cons_not '[' _ (by decide)]; rfl)
      (by rw [skipWs_cons_not '[' _ (by decide)]; rfl)]
    rw [STR_NumArray_fail2 'B' f' _ _ 'L' _ (by rw [skipWs_cons_not '[' _ (by decide)])
      (by rw [skipWs_cons_not 'L' _ (by decide)]) (by decide), orElseR_fail]
    rw [STR_NumArray_fail2 'I' f' _ _ 'L' _ (by rw [skipWs_cons_not '[' _ (by decide)])
      (by rw [skipWs_cons_not 'L' _ (by decide)]) (by decide), orElseR_fail]
    have hmk : make_tag_array 'L' (v :: vs) = .ok (.TAG_Long_Array (v :: vs)) := by
      unfold make_tag_array
      rw [if_neg (by decide), if_neg (by decide)]
    have hL : STR_NumArray 'L' f' ('[' :: 'L' :: ';' :: ' ' :: (joinInts (v :: vs) ++ ']' :: r))
        = .ok (.TAG_Long_Array (v :: vs), r) := by
      unfold STR_NumArray
      simp only [matchNumList_printed 'L' (by decide) (by decide) (by decide) (by decide)
        v vs f' (by omega) r, hmk]
    rw [hL, orElseR_ok]
  | list t ts hpt hpts iht ihts =>
    intro f r hr hf
    obtain ⟨f', rfl⟩ : ∃ f', f = f' + 1 := ⟨f - 1, by omega⟩
    obtain ⟨f2, rfl⟩ : ∃ f2, f' = f2 + 1 := ⟨f' - 1, by omega⟩
    show STR_TAG (f2 + 1 + 1) (('[' :: (joinTags (t :: ts) ++ [']'])) ++ r)
      = .ok (.TAG_List t.id (t :: ts), r)
    have harr : ('[' :: (joinTags (t :: ts) ++ [']'])) ++ r
        = '[' :: (joinTags (t :: ts) ++ ']' :: r) := by simp
    rw [harr]
    have hlen1 : (nbt2strChars (.TAG_List t.id (t :: ts))).length
        = (joinTags (t :: ts)).length + 2 := by
      show ('[' :: (joinTags (t :: ts) ++ [']'])).length = _
      simp
    obtain ⟨c, cs, hD, hcls⟩ := nbt2strChars_head t hpt
    obtain ⟨hcB, hcI, hcL⟩ := printedHead_ne_typecode c hcls
    have hjt : joinTags (t :: ts) ++ ']' :: r = c :: (cs ++ tailJoinTags ts ++ ']' :: r) := by
      rw [joinTags_eq, hD]
      simp
    have hskip : skipWs (joinTags (t :: ts) ++ ']' :: r)
        = c :: (cs ++ tailJoinTags ts ++ ']' :: r) := by
      rw [hjt, skipWs_cons_not c _ (printedHead_not_ws c hcls)]
    unfold STR_TAG
    rw [STR_Number_none _ (by rw [skipWs_cons_not '[' _ (by decide)]; rfl)]
    rw [STR_String_none _ (by rw [skipWs_cons_not '[' _ (by decide)]; rfl)
      (by rw [skipWs_cons_not '[' _ (by decide)]; rfl)]
    rw [STR_NumArray_fail2 'B' _ _ _ c _ (by rw [skipWs_cons_not '[' _ (by decide)])
      hskip hcB, orElseR_fail]
    rw [STR_NumArray_fail2 'I' _ _ _ c _ (by rw [skipWs_cons_not '[' _ (by decide)])
      hskip hcI, orElseR_fail]
    rw [STR_NumArray_fail2 'L' _ _ _ c _ (by rw [skipWs_cons_not '[' _ (by decide)])
      hskip hcL, orElseR_fail]
    have helems := tagElems_printed t ts iht ihts f2 r (by omega)
    have hList : STR_List (f2 + 1) ('[' :: (joinTags (t :: ts) ++ ']' :: r))
        = .ok (.TAG_List t.id (t :: ts), r) := by
      unfold STR_List
      have hlit1 : litCh '[' ('[' :: (joinTags (t :: ts) ++ ']' :: r))
          = some (joinTags (t :: ts) ++ ']' :: r) :=
        litCh_yes _ _ _ (by rw [skipWs_cons_not '[' _ (by decide)])
      have hlit2 : litCh ']' (']' :: r) = some r :=
        litCh_yes _ _ _ (by rw [skipWs_cons_not ']' _ (by decide)])
      have hmk : make_tag_list (t :: ts) = .ok (.TAG_List t.id (t :: ts)) := rfl
      simp only [hlit1, helems, hlit2, hmk]
    rw [hList, orElseR_ok]
  | compound es hoks hps ihes =>
    intro f r hr hf
    obtain ⟨f', rfl⟩ : ∃ f', f = f' + 1 := ⟨f - 1, by omega⟩
    obtain ⟨f2, rfl⟩ : ∃ f2, f' = f2 + 1 := ⟨f' - 1, by omega⟩
    show STR_TAG (f2 + 1 + 1) ((lbrace :: (joinEnts es ++ [rbrace])) ++ r)
      = .ok (.TAG_Compound es, r)
    have harr : (lbrace :: (joinEnts es ++ [rbrace])) ++ r
        = lbrace :: (joinEnts es ++ rbrace :: r) := by simp
    rw [harr]
    have hlen1 : (nbt2strChars (.TAG_Compound es)).length = (joinEnts es).length + 2 := by
      show (lbrace :: (joinEnts es ++ [rbrace])).length = _
      simp
    unfold STR_TAG
    rw [STR_Number_none _ (by rw [skipWs_cons_not lbrace _ (by decide)]; rfl)]
    rw [STR_String_none _ (by rw [skipWs_cons_not lbrace _ (by decide)]; rfl)
      (by rw [skipWs_cons_not lbrace _ (by decide)]; rfl)]
    rw [STR_NumArray_fail1 'B' _ _ lbrace _ (by rw [skipWs_cons_not lbrace _ (by decide)])
      (by decide), orElseR_fail]
    rw [STR_NumArray_fail1 'I' _ _ lbrace _ (by rw [skipWs_cons_not lbrace _ (by decide)])
      (by decide), orElseR_fail]
    rw [STR_NumArray_fail1 'L' _ _ lbrace _ (by rw [skipWs_cons_not lbrace _ (by decide)])
      (by decide), orElseR_fail]
    rw [STR_List_fail1 f2 _ lbrace _ (by rw [skipWs_cons_not lbrace _ (by decide)])
      (by decide), orElseR_fail]
    cases es with
    | nil =>
      obtain ⟨f3, rfl⟩ : ∃ f3, f2 = f3 + 1 := ⟨f2 - 1, by omega⟩
      obtain ⟨f4, rfl⟩ : ∃ f4, f3 = f4 + 1 := ⟨f3 - 1, by omega⟩
      show STR_Compound (f4 + 1 + 1 + 1) (lbrace :: (joinEnts [] ++ rbrace :: r))
        = .ok (.TAG_Compound [], r)
      have hje : joinEnts ([] : List (String × Tag)) = [] := rfl
      rw [hje]
      unfold STR_Compound
      have hlit1 : litCh lbrace (lbrace :: (([] : Chars) ++ rbrace :: r))
          = some ([] ++ rbrace :: r) :=
        litCh_yes _ _ _ (by rw [skipWs_cons_not lbrace _ (by decide)])
      have hseq : kvSeq (f4 + 1 + 1) (([] : Chars) ++ rbrace :: r) = .error .parseFail := by
        show kvSeq (f4 + 1 + 1) (rbrace :: r) = .error .parseFail
        unfold kvSeq kvEntry
        rw [STR_String_none _ (by rw [skipWs_cons_not rbrace _ (by decide)]; rfl)
          (by rw [skipWs_cons_not rbrace _ (by decide)]; rfl)]
      have hlitr : litCh rbrace (([] : Chars) ++ rbrace :: r) = some r := by
        rw [List.nil_append]
        exact litCh_yes _ _ _ (by rw [skipWs_cons_not rbrace _ (by decide)])
      simp only [hlit1, hseq, hlitr]
      rfl
    | cons e es' =>
      obtain ⟨n, t⟩ := e
      obtain ⟨f3, rfl⟩ : ∃ f3, f2 = f3 + 1 := ⟨f2 - 1, by omega⟩
      show STR_Compound (f3 + 1 + 1) (lbrace :: (joinEnts ((n, t) :: es') ++ rbrace :: r))
        = .ok (.TAG_Compound ((n, t) :: es'), r)
      unfold STR_Compound
      have hlit1 : litCh lbrace (lbrace :: (joinEnts ((n, t) :: es') ++ rbrace :: r))
          = some (joinEnts ((n, t) :: es') ++ rbrace :: r) :=
        litCh_yes _ _ _ (by rw [skipWs_cons_not lbrace _ (by decide)])
      have hok : OkStr n := hoks (n, t) (by simp)
      have hIHt : ReParses t := ihes (n, t) (by simp)
      have hoks' : ∀ e ∈ es', OkStr e.1 := fun e he => hoks e (by simp [he])
      have hIH' : ∀ e ∈ es', ReParses e.2 := fun e he => ihes e (by simp [he])
      have hseq := kvSeq_printed n t es' hok hIHt hoks' hIH' (f3 + 1) r (by omega)
      have hlitr : litCh rbrace (rbrace :: r) = some r :=
        litCh_yes _ _ _ (by rw [skipWs_cons_not rbrace _ (by decide)])
      simp only [hlit1, hseq, hlitr, make_tag_compound_pairs]

/-! ### Soundness: parsed tags are producible -/

theorem IsDec_floatRat (neg : Bool) (i fv fl : Nat) (e : Int) :
    IsDec (floatRat neg i fv fl e) := by
  unfold floatRat
  by_cases he : 0 ≤ e
  · rw [if_pos he]
    exact ⟨_, fl, rfl⟩
  · rw [if_neg he]
    exact ⟨_, fl + e.natAbs, rfl⟩

theorem pickLonger_cases {α : Type} (a b : Option (α × Chars)) (x : α × Chars)
    (h : pickLonger a b = some x) : a = some x ∨ b = some x := by
  cases a with
  | none =>
    cases b with
    | none => simp [pickLonger] at h
    | some y => right; simpa [pickLonger] using h
  | some y =>
    cases b with
    | none => left; simpa [pickLonger] using h
    | some z =>
      simp only [pickLonger] at h
      by_cases hlt : z.2.length < y.2.length
      · rw [if_pos hlt] at h
        right; exact h
      · rw [if_neg hlt] at h
        left; exact h

theorem matchFloatNum_sound (suf : Suf) (s : Chars) (p : PyFloat × Chars)
    (h : matchFloatNum suf s = some p) (q : Rat) (hq : p.1 = .finite q) :
    IsDec q ∧ FiniteDbl q := by
  unfold matchFloatNum at h
  simp only [] at h
  split at h
  · exact absurd h (by simp)
  · split at h
    · exact absurd h (by simp)
    · have heq := Option.some.inj h
      have h1 : p.1 = floatVal (scanSign (skipWs s)).1
          (digitsVal (takeWhileCh isDigitC (scanSign (skipWs s)).2).1)
          (scanFrac (takeWhileCh isDigitC (scanSign (skipWs s)).2).2).1
          (scanFrac (takeWhileCh isDigitC (scanSign (skipWs s)).2).2).2.1
          (scanExp (scanFrac (takeWhileCh isDigitC (scanSign (skipWs s)).2).2).2.2).1 := by
        rw [← heq]
      rw [hq] at h1
      obtain ⟨hR, hfd⟩ := floatVal_finite _ _ _ _ _ q h1.symm
      exact ⟨hR ▸ IsDec_floatRat _ _ _ _ _, hfd⟩

theorem STR_Number_sound (s : Chars) (t : Tag) (r : Chars)
    (h : STR_Number s = some (t, r)) (hni : noInfB t = true) : Producible t := by
  unfold STR_Number at h
  rcases pickLonger_cases _ _ _ h with h1 | h1
  case _ =>
    rcases pickLonger_cases _ _ _ h1 with h2 | h2
    case _ =>
      rcases pickLonger_cases _ _ _ h2 with h3 | h3
      case _ =>
        rcases pickLonger_cases _ _ _ h3 with h4 | h4
        case _ =>
          rcases pickLonger_cases _ _ _ h4 with h5 | h5
          case _ =>
            obtain ⟨p, hp, hmap⟩ := Option.map_eq_some'.mp h5
            have ht : Tag.TAG_Byte p.1 = t := by
              have := congrArg Prod.fst hmap
              simpa using this
            rw [← ht]
            exact .byte p.1
          case _ =>
            obtain ⟨p, hp, hmap⟩ := Option.map_eq_some'.mp h5
            have ht : Tag.TAG_Short p.1 = t := by
              have := congrArg Prod.fst hmap
              simpa using this
            rw [← ht]
            exact .short p.1
        case _ =>
          obtain ⟨p, hp, hmap⟩ := Option.map_eq_some'.mp h4
          have ht : Tag.TAG_Int p.1 = t := by
            have := congrArg Prod.fst hmap
            simpa using this
          rw [← ht]
          exact .int p.1
      case _ =>
        obtain ⟨p, hp, hmap⟩ := Option.map_eq_some'.mp h3
        have ht : Tag.TAG_Long p.1 = t := by
          have := congrArg Prod.fst hmap
          simpa using this
        rw [← ht]
        exact .long p.1
    case _ =>
      obtain ⟨p, hp, hmap⟩ := Option.map_eq_some'.mp h2
      have ht : Tag.TAG_Float p.1 = t := by
        have := congrArg Prod.fst hmap
        simpa using this
      rw [← ht]
      rw [← ht] at hni
      cases hpf : p.1 with
      | finite q =>
        obtain ⟨hdec, hfd⟩ := matchFloatNum_sound _ _ _ hp q hpf
        exact .float q hdec hfd
      | inf =>
        rw [hpf] at hni
        exact absurd hni (by decide)
      | ninf =>
        rw [hpf] at hni
        exact absurd hni (by decide)
  case _ =>
    obtain ⟨p, hp, hmap⟩ := Option.map_eq_some'.mp h1
    have ht : Tag.TAG_Double p.1 = t := by
      have := congrArg Prod.fst hmap
      simpa using this
    rw [← ht]
    rw [← ht] at hni
    cases hpf : p.1 with
    | finite q =>
      obtain ⟨hdec, hfd⟩ := matchFloatNum_sound _ _ _ hp q hpf
      exact .double q hdec hfd
    | inf =>
      rw [hpf] at hni
      exact absurd hni (by decide)
    | ninf =>
      rw [hpf] at hni
      exact absurd hni (by decide)

theorem isAlnumC_okStrChar (c : Char) (h : isAlnumC c = true) :
    c ≠ dquote ∧ c ≠ '\n' ∧ c ≠ '\r' := by
  refine ⟨?_, ?_, ?_⟩ <;> rintro rfl <;> exact absurd h (by decide)

theorem wordAlnums_sound (s : Chars) (v : String) (r : Chars)
    (h : wordAlnums s = some (v, r)) : OkStr v := by
  unfold wordAlnums at h
  simp only [] at h
  split at h
  · exact absurd h (by simp)
  · have heq := Option.some.inj h
    have hv : v = (⟨(takeWhileCh isAlnumC (skipWs s)).1⟩ : String) := by
      have := congrArg Prod.fst heq
      simpa using this.symm
    intro c hc
    rw [hv] at hc
    exact isAlnumC_okStrChar c (takeWhileCh_sound isAlnumC (skipWs s) c hc)

theorem notQuoteEnd_okStrChar (c : Char) (h : notQuoteEnd c = true) :
    c ≠ dquote ∧ c ≠ '\n' ∧ c ≠ '\r' := by
  simp [notQuoteEnd] at h
  exact ⟨h.1.1, h.1.2, h.2⟩

theorem quotedString_sound (s : Chars) (v : String) (r : Chars)
    (h : quotedString s = some (v, r)) : OkStr v := by
  unfold quotedString at h
  split at h
  · split at h
    · simp only [] at h
      split at h
      · split at h
        · have heq := Option.some.inj h
          have hdata := congrArg (fun q => q.1.data) heq
          simp only [] at hdata
          intro c hc
          rw [← hdata] at hc
          exact notQuoteEnd_okStrChar c (takeWhileCh_sound notQuoteEnd _ c hc)
        · exact absurd h (by simp)
      · exact absurd h (by simp)
    · exact absurd h (by simp)
  · exact absurd h (by simp)

theorem STR_String_sound (s : Chars) (t : Tag) (r : Chars)
    (h : STR_String s = some (t, r)) : ∃ v, t = .TAG_String v ∧ OkStr v := by
  unfold STR_String at h
  obtain ⟨p, hp, hmap⟩ := Option.map_eq_some'.mp h
  have ht : Tag.TAG_String p.1 = t := by
    have := congrArg Prod.fst hmap
    simpa using this
  refine ⟨p.1, ht.symm, ?_⟩
  rcases pickLonger_cases _ _ _ hp with h1 | h1
  · exact wordAlnums_sound s p.1 p.2 (by rw [h1])
  · exact quotedString_sound s p.1 p.2 (by rw [h1])

theorem numElems_cons (sufc : Char) (f : Nat) (s : Chars) (vs : List Int) (r : Chars)
    (h : numElems sufc f s = some (vs, r)) : ∃ v vs', vs = v :: vs' := by
  unfold numElems at h
  split at h
  · exact absurd h (by simp)
  · have heq := Option.some.inj h
    have := congrArg Prod.fst heq
    simp at this
    exact ⟨_, _, this.symm⟩

theorem matchNumList_cons (tc : Char) (f : Nat) (s : Chars) (vs : List Int) (r : Chars)
    (h : matchNumList tc f s = some (vs, r)) : ∃ v vs', vs = v :: vs' := by
  unfold matchNumList at h
  split at h
  · exact absurd h (by simp)
  · split at h
    · exact absurd h (by simp)
    · split at h
      · exact absurd h (by simp)
      · split at h
        · exact absurd h (by simp)
        · rename_i vs1 s4 hnum
          split at h
          · exact absurd h (by simp)
          · have heq := Option.some.inj h
            have := congrArg Prod.fst heq
            simp at this
            obtain ⟨v, vs', hv⟩ := numElems_cons _ _ _ _ _ hnum
            exact ⟨v, vs', by rw [← this, hv]⟩

theorem STR_NumArray_sound (tc : Char) (f : Nat) (s : Chars) (t : Tag) (r : Chars)
    (h : STR_NumArray tc f s = .ok (t, r)) : Producible t := by
  unfold STR_NumArray at h
  split at h
  · exact absurd h (by simp)
  · rename_i vs r' hlist
    obtain ⟨v, vs', rfl⟩ := matchNumList_cons _ _ _ _ _ hlist
    unfold make_tag_array at h
    by_cases hB : tc = 'B'
    · rw [if_pos hB] at h
      unfold bytearrayOf at h
      by_cases hall : (v :: vs').all (fun x => 0 ≤ x && x < 256) = true
      · rw [if_pos hall] at h
        have heq := Except.ok.inj h
        have ht : t = .TAG_Byte_Array (v :: vs') := by
          have := congrArg Prod.fst heq
          simpa using this.symm
        rw [ht]
        refine .byteArr v vs' ?_
        intro x hx
        have := List.all_eq_true.mp hall x hx
        simp only [Bool.and_eq_true, decide_eq_true_eq] at this
        exact this
      · rw [if_neg hall] at h
        exact absurd h (by simp)
    · rw [if_neg hB] at h
      by_cases hI : tc = 'I'
      · rw [if_pos hI] at h
        have heq := Except.ok.inj h
        have ht : t = .TAG_Int_Array (v :: vs') := by
          have := congrArg Prod.fst heq
          simpa using this.symm
        rw [ht]
        exact .intArr v vs'
      · rw [if_neg hI] at h
        have heq := Except.ok.inj h
        have ht : t = .TAG_Long_Array (v :: vs') := by
          have := congrArg Prod.fst heq
          simpa using this.symm
        rw [ht]
        exact .longArr v vs'

theorem orElseR_ok_cases (a : Except PErr (Tag × Chars)) (b : Unit → Except PErr (Tag × Chars))
    (x : Tag × Chars) (h : orElseR a b = .ok x) : a = .ok x ∨ b () = .ok x := by
  unfold orElseR at h
  split at h
  · right; exact h
  · left; exact h

theorem noInfB_list (i : Nat) (ts : List Tag) : noInfB (.TAG_List i ts) = noInfL ts := rfl

theorem noInfB_compound (es : List (String × Tag)) :
    noInfB (.TAG_Compound es) = noInfE es := rfl

theorem noInfL_of_mem (ts : List Tag) (u : Tag) (hu : u ∈ ts) (h : noInfL ts = true) :
    noInfB u = true := by
  induction ts with
  | nil => simp at hu
  | cons t ts ih =>
    simp only [noInfL, Bool.and_eq_true] at h
    rcases List.mem_cons.mp hu with rfl | hu
    · exact h.1
    · exact ih hu h.2

theorem noInfE_of_mem (es : List (String × Tag)) (e : String × Tag) (he : e ∈ es)
    (h : noInfE es = true) : noInfB e.2 = true := by
  induction es with
  | nil => simp at he
  | cons p es ih =>
    obtain ⟨n, t⟩ := p
    simp only [noInfE, Bool.and_eq_true] at h
    rcases List.mem_cons.mp he with rfl | he
    · exact h.1
    · exact ih he h.2

theorem make_tag_compound_sound (pairs : List (Tag × Tag))
    (hkv : ∀ kv ∈ pairs, (∃ v, kv.1 = .TAG_String v ∧ OkStr v) ∧
      (noInfB kv.2 = true → Producible kv.2))
    (hni : noInfB (make_tag_compound pairs) = true) :
    Producible (make_tag_compound pairs) := by
  rw [show make_tag_compound pairs =
    .TAG_Compound (pairs.map fun kv => (tagStrValue kv.1, kv.2)) from rfl,
    noInfB_compound] at hni
  unfold make_tag_compound
  refine .compound _ ?_ ?_ <;> intro e he <;> obtain ⟨kv, hkvmem, rfl⟩ := List.mem_map.mp he
  · obtain ⟨⟨v, hk, hok⟩, -⟩ := hkv kv hkvmem
    show OkStr (tagStrValue kv.1)
    rw [hk]
    exact hok
  · exact (hkv kv hkvmem).2
      (noInfE_of_mem _ _ (List.mem_map_of_mem _ hkvmem) hni)

/-- Joint soundness of all grammar productions: every parsed tag satisfies
the `Producible` invariants. -/
theorem sound_all : ∀ f : Nat,
    (∀ s t r, STR_TAG f s = .ok (t, r) → noInfB t = true → Producible t) ∧
    (∀ s t r, STR_List f s = .ok (t, r) → noInfB t = true → Producible t) ∧
    (∀ s l r, tagElems f s = .ok (l, r) → ∀ u ∈ l, noInfB u = true → Producible u) ∧
    (∀ s l r, tagElemsMore f s = .ok (l, r) → ∀ u ∈ l, noInfB u = true → Producible u) ∧
    (∀ s kv r, kvEntry f s = .ok (kv, r) →
      (∃ v, kv.1 = .TAG_String v ∧ OkStr v) ∧
        (noInfB kv.2 = true → Producible kv.2)) ∧
    (∀ s l r, kvSeq f s = .ok (l, r) →
      ∀ kv ∈ l, (∃ v, kv.1 = .TAG_String v ∧ OkStr v) ∧
        (noInfB kv.2 = true → Producible kv.2)) ∧
    (∀ s l r, kvSeqMore f s = .ok (l, r) →
      ∀ kv ∈ l, (∃ v, kv.1 = .TAG_String v ∧ OkStr v) ∧
        (noInfB kv.2 = true → Producible kv.2)) ∧
    (∀ s t r, STR_Compound f s = .ok (t, r) → noInfB t = true → Producible t) := by
  intro f
  induction f with
  | zero =>
    refine ⟨?_, ?_, ?_, ?_, ?_, ?_, ?_, ?_⟩ <;> intro s x r h <;>
      simp [STR_TAG, STR_List, tagElems, tagElemsMore, kvEntry, kvSeq, kvSeqMore,
        STR_Compound] at h
  | succ f ih =>
    obtain ⟨ihTag, ihList, ihElems, ihMore, ihKv, ihSeq, ihSeqMore, ihComp⟩ := ih
    refine ⟨?_, ?_, ?_, ?_, ?_, ?_, ?_, ?_⟩
    · -- STR_TAG
      intro s t r h hni
      unfold STR_TAG at h
      rcases hnum : STR_Number s with _ | ⟨t', r'⟩
      case _ =>
        rw [hnum] at h
        rcases hstr : STR_String s with _ | ⟨t', r'⟩
        case _ =>
          rw [hstr] at h
          simp only [] at h
          rcases orElseR_ok_cases _ _ _ h with h1 | h1
          · exact STR_NumArray_sound 'B' f s t r h1
          rcases orElseR_ok_cases _ _ _ h1 with h2 | h2
          · exact STR_NumArray_sound 'I' f s t r h2
          rcases orElseR_ok_cases _ _ _ h2 with h3 | h3
          · exact STR_NumArray_sound 'L' f s t r h3
          rcases orElseR_ok_cases _ _ _ h3 with h4 | h4
          · exact ihList s t r h4 hni
          · exact ihComp s t r h4 hni
        case _ =>
          rw [hstr] at h
          simp only [] at h
          have heq := Except.ok.inj h
          have ht : t' = t := by
            have := congrArg Prod.fst heq
            simpa using this
          rw [← ht]
          obtain ⟨v, hv, hok⟩ := STR_String_sound s t' r' hstr
          rw [hv]
          exact .str v hok
      case _ =>
        rw [hnum] at h
        simp only [] at h
        have heq := Except.ok.inj h
        have ht : t' = t := by
          have := congrArg Prod.fst heq
          simpa using this
        rw [← ht]
        rw [← ht] at hni
        exact STR_Number_sound s t' r' hnum hni
    · -- STR_List
      intro s t r h hni
      unfold STR_List at h
      split at h
      · exact absurd h (by simp)
      · split at h
        · rename_i vals s2 hele
          split at h
          · exact absurd h (by simp)
          · split at h
            · rename_i t' hmk
              have ht : t' = t := by
                have := congrArg Prod.fst (Except.ok.inj h)
                simpa using this
              rw [← ht]
              rw [← ht] at hni
              cases vals with
              | nil => exact absurd hmk (by simp [make_tag_list])
              | cons v vs =>
                have hmk2 : Tag.TAG_List v.id (v :: vs) = t' := by
                  have := Except.ok.inj hmk
                  simpa [make_tag_list] using this
                rw [← hmk2]
                rw [← hmk2] at hni
                have hall := ihElems _ _ _ hele
                have hel : ∀ u ∈ v :: vs, noInfB u = true := fun u hu =>
                  noInfL_of_mem _ u hu (by rw [noInfB_list] at hni; exact hni)
                exact .list v vs (hall v (by simp) (hel v (by simp)))
                  (fun u hu => hall u (by simp [hu]) (hel u (by simp [hu])))
            · exact absurd h (by simp)
        · rename_i hele
          split at h
          · exact absurd h (by simp)
          · split at h
            · rename_i t' hmk
              exact absurd hmk (by simp [make_tag_list])
            · exact absurd h (by simp)
        · exact absurd h (by simp)
    · -- tagElems
      intro s l r h
      unfold tagElems at h
      split at h
      · exact absurd h (by simp)
      · rename_i t s1 htag
        split at h
        · rename_i ts s2 hmore
          have hl : t :: ts = l := by
            have := congrArg Prod.fst (Except.ok.inj h)
            simpa using this
          rw [← hl]
          intro u hu hni
          rcases List.mem_cons.mp hu with rfl | hu
          · exact ihTag _ _ _ htag hni
          · exact ihMore _ _ _ hmore u hu hni
        · exact absurd h (by simp)
    · -- tagElemsMore
      intro s l r h
      unfold tagElemsMore at h
      split at h
      · have hl : ([] : List Tag) = l := by
          have := congrArg Prod.fst (Except.ok.inj h)
          simpa using this
        rw [← hl]
        intro u hu
        simp at hu
      · split at h
        · have hl : ([] : List Tag) = l := by
            have := congrArg Prod.fst (Except.ok.inj h)
            simpa using this
          rw [← hl]
          intro u hu
          simp at hu
        · exact absurd h (by simp)
        · rename_i t s2 htag
          split at h
          · rename_i ts s3 hmore
            have hl : t :: ts = l := by
              have := congrArg Prod.fst (Except.ok.inj h)
              simpa using this
            rw [← hl]
            intro u hu hni
            rcases List.mem_cons.mp hu with rfl | hu
            · exact ihTag _ _ _ htag hni
            · exact ihMore _ _ _ hmore u hu hni
          · exact absurd h (by simp)
    · -- kvEntry
      intro s kv r h
      unfold kvEntry at h
      rcases hstr : STR_String s with _ | ⟨k, s1⟩
      case _ =>
        rw [hstr] at h
        simp at h
      case _ =>
        rw [hstr] at h
        simp only [] at h
        rcases hcol : litCh ':' s1 with _ | s2
        case _ =>
          rw [hcol] at h
          simp at h
        case _ =>
          rw [hcol] at h
          simp only [] at h
          split at h
          · rename_i v s3 htag
            have hkv : (k, v) = kv := by
              have := congrArg Prod.fst (Except.ok.inj h)
              simpa using this
            rw [← hkv]
            obtain ⟨str, hk, hok⟩ := STR_String_sound s k s1 hstr
            exact ⟨⟨str, hk, hok⟩, fun hni => ihTag _ _ _ htag hni⟩
          · exact absurd h (by simp)
    · -- kvSeq
      intro s l r h
      unfold kvSeq at h
      split at h
      · exact absurd h (by simp)
      · rename_i kv s1 hentry
        split at h
        · rename_i kvs s2 hmore
          have hl : kv :: kvs = l := by
            have := congrArg Prod.fst (Except.ok.inj h)
            simpa using this
          rw [← hl]
          intro e he
          rcases List.mem_cons.mp he with rfl | he
          · exact ihKv _ _ _ hentry
          · exact ihSeqMore _ _ _ hmore e he
        · exact absurd h (by simp)
    · -- kvSeqMore
      intro s l r h
      unfold kvSeqMore at h
      split at h
      · have hl : ([] : List (Tag × Tag)) = l := by
          have := congrArg Prod.fst (Except.ok.inj h)
          simpa using this
        rw [← hl]
        intro e he
        simp at he
      · split at h
        · have hl : ([] : List (Tag × Tag)) = l := by
            have := congrArg Prod.fst (Except.ok.inj h)
            simpa using this
          rw [← hl]
          intro e he
          simp at he
        · exact absurd h (by simp)
        · rename_i kv s2 hentry
          split at h
          · rename_i kvs s3 hmore
            have hl : kv :: kvs = l := by
              have := congrArg Prod.fst (Except.ok.inj h)
              simpa using this
            rw [← hl]
            intro e he
            rcases List.mem_cons.mp he with rfl | he
            · exact ihKv _ _ _ hentry
            · exact ihSeqMore _ _ _ hmore e he
          · exact absurd h (by simp)
    · -- STR_Compound
      intro s t r h hni
      unfold STR_Compound at h
      split at h
      · exact absurd h (by simp)
      · split at h
        · rename_i pairs s2 hseq
          split at h
          · exact absurd h (by simp)
          · have ht : make_tag_compound pairs = t := by
              have := congrArg Prod.fst (Except.ok.inj h)
              simpa using this
            rw [← ht]
            rw [← ht] at hni
            exact make_tag_compound_sound pairs (ihSeq _ _ _ hseq) hni
        · rename_i hseq
          split at h
          · exact absurd h (by simp)
          · have ht : make_tag_compound [] = t := by
              have := congrArg Prod.fst (Except.ok.inj h)
              simpa using this
            rw [← ht]
            rw [← ht] at hni
            exact make_tag_compound_sound [] (by intro kv hkv; simp at hkv) hni
        · exact absurd h (by simp)

theorem str2nbt_sound (s : String) (t : Tag) (h : str2nbt s = .ok t)
    (hni : noInfB t = true) : Producible t := by
  unfold str2nbt at h
  split at h
  · rename_i t' rest htag
    split at h
    · rw [← Except.ok.inj h]
      exact (sound_all (fuelOf s)).1 _ _ _ htag (by rw [Except.ok.inj h]; exact hni)
    · exact absurd h (by simp)
  · exact absurd h (by simp)

theorem str2nbt_roundtrip (s : String) (t : Tag) (h : str2nbt s = .ok t)
    (hni : noInfB t = true) : str2nbt (nbt2str t) = .ok t := by
  have hp := str2nbt_sound s t h hni
  have hrp := printParse t hp
  unfold str2nbt
  have hlen : (nbt2str t).length = (nbt2strChars t).length := rfl
  have h1 : STR_TAG (fuelOf (nbt2str t)) ((nbt2str t).data) = .ok (t, []) := by
    show STR_TAG (fuelOf (nbt2str t)) (nbt2strChars t) = .ok (t, [])
    have := hrp (fuelOf (nbt2str t)) [] rfl (by unfold fuelOf; rw [hlen]; omega)
    simpa using this
  rw [h1]
  rfl

/-! ### Helper lemmas for the claim theorems -/

theorem pyListOf_map (ts : List Tag) : pyListOf ts = ts.map nbt2py := by
  induction ts with
  | nil => rfl
  | cons t ts ih => simp [pyListOf, ih]

theorem dictInsert_notmem (k : String) (v : Py) (d : List (String × Py))
    (h : ∀ p ∈ d, p.1 ≠ k) : dictInsert k v d = d ++ [(k, v)] := by
  unfold dictInsert
  rw [if_neg]
  simp only [List.any_eq_true, not_exists]
  intro p hp
  obtain ⟨hm, he⟩ := hp
  exact h p hm (by simpa using he)

theorem pyDictOf_nodup (es : List (String × Tag)) :
    ∀ acc : List (String × Py), (es.map Prod.fst).Nodup →
      (∀ p ∈ acc, ∀ e ∈ es, p.1 ≠ e.1) →
      pyDictOf es acc = acc ++ es.map (fun e => (e.1, nbt2py e.2)) := by
  induction es with
  | nil => intro acc _ _; simp [pyDictOf]
  | cons e es ih =>
    intro acc hnd hdisj
    obtain ⟨n, t⟩ := e
    simp only [pyDictOf]
    rw [dictInsert_notmem n (nbt2py t) acc
      (fun p hp => hdisj p hp (n, t) (List.mem_cons_self _ _))]
    rw [ih (acc ++ [(n, nbt2py t)]) ?hnd ?hdisj]
    · simp
    case hnd =>
      simp only [List.map_cons, List.nodup_cons] at hnd
      exact hnd.2
    case hdisj =>
      intro p hp e' he'
      rcases List.mem_append.mp hp with hp | hp
      · exact hdisj p hp e' (List.mem_cons_of_mem _ he')
      · simp only [List.mem_singleton] at hp
        rw [hp]
        simp only [List.map_cons, List.nodup_cons] at hnd
        intro he
        apply hnd.1
        rw [show n = e'.1 from he]
        exact List.mem_map_of_mem Prod.fst he'

/-- C1 (corrected): a tag tree obtained from `str2nbt` re-parses from its
printed form `nbt2str` to a structurally equal tree (same variant and value
at every node, compound order preserved, strings compared by value),
provided every Float/Double value in it is finite.  The unrestricted claim
is false: an overflowing literal parses to an infinite Double whose printed
form re-parses as a String (see the counterexample). -/
theorem C1_roundtrip (s : String) (t : Tag) (h : str2nbt s = .ok t)
    (hfin : noInfB t = true) : str2nbt (nbt2str t) = .ok t :=
  str2nbt_roundtrip s t h hfin

theorem C1_roundtrip_witness :
    str2nbt "\x7ba:1,b:[1,2,3]\x7d" =
      .ok (.TAG_Compound [("a", .TAG_Int 1),
        ("b", .TAG_List 3 [.TAG_Int 1, .TAG_Int 2, .TAG_Int 3])]) ∧
    noInfB (.TAG_Compound [("a", .TAG_Int 1),
        ("b", .TAG_List 3 [.TAG_Int 1, .TAG_Int 2, .TAG_Int 3])]) = true ∧
    str2nbt (nbt2str (.TAG_Compound [("a", .TAG_Int 1),
        ("b", .TAG_List 3 [.TAG_Int 1, .TAG_Int 2, .TAG_Int 3])])) =
      .ok (.TAG_Compound [("a", .TAG_Int 1),
        ("b", .TAG_List 3 [.TAG_Int 1, .TAG_Int 2, .TAG_Int 3])]) :=
  ⟨rfl, rfl, C1_roundtrip "\x7ba:1,b:[1,2,3]\x7d" _ rfl rfl⟩

theorem C1_roundtrip_counterexample :
    str2nbt "1e400" = .ok (.TAG_Double .inf) ∧
    nbt2str (.TAG_Double .inf) = "infd" ∧
    str2nbt "infd" = .ok (.TAG_String "infd") :=
  ⟨rfl, rfl, rfl⟩

/-- C2: the numeric alternation resolves by longest overall match (the `Or`
step keeps an alternative only until a longer one appears), so `1` parses as
Int, `1.0` as Double, `1.0f` as Float and `1b` as Byte. -/
theorem C2_longest_match :
    str2nbt "1" = .ok (.TAG_Int 1) ∧
    str2nbt "1.0" = .ok (.TAG_Double (.finite 1)) ∧
    str2nbt "1.0f" = .ok (.TAG_Float (.finite 1)) ∧
    str2nbt "1b" = .ok (.TAG_Byte 1) ∧
    (∀ x y : Tag × Chars, y.2.length < x.2.length →
      pickLonger (some x) (some y) = some y) ∧
    (∀ x y : Tag × Chars, x.2.length ≤ y.2.length →
      pickLonger (some x) (some y) = some x) := by
  refine ⟨rfl, rfl, rfl, rfl, ?_, ?_⟩
  · intro x y hlt
    simp [pickLonger, hlt]
  · intro x y hle
    simp [pickLonger, Nat.not_lt.mpr hle]

/-- C3: what the code actually does on the empty literals: `\x7b\x7d` parses to
an empty Compound, but `[]` is rejected with a ParseError instead of
yielding an empty List: the `make_tag_list` parse action evaluates `t[0]`
on the empty match, raising an `IndexError` that pyparsing converts to a
`ParseException`. -/
theorem C3_empty_literals :
    str2nbt "[]" = .error .parseFail ∧
    str2nbt "\x7b\x7d" = .ok (.TAG_Compound []) :=
  ⟨rfl, rfl⟩

/-- C4: `str2nbt` consumes the entire input: a parse that leaves non-blank
trailing characters is rejected with a ParseError and no partial tree is
returned; the unterminated compound is such a ParseError. -/
theorem C4_parse_all (s : String) (t : Tag) (rest : Chars)
    (h : STR_TAG (fuelOf s) s.data = .ok (t, rest)) (hrest : skipWs rest ≠ []) :
    str2nbt s = .error .parseFail ∧ str2nbt "\x7ba:1" = .error .parseFail := by
  refine ⟨?_, rfl⟩
  unfold str2nbt
  rw [h]
  show (if skipWs rest = [] then Except.ok t else Except.error PErr.parseFail) =
    Except.error PErr.parseFail
  rw [if_neg hrest]

theorem C4_parse_all_witness :
    STR_TAG (fuelOf "1 2") "1 2".data = .ok (.TAG_Int 1, [' ', '2']) ∧
    skipWs [' ', '2'] ≠ [] ∧
    (str2nbt "1 2" = .error .parseFail ∧ str2nbt "\x7ba:1" = .error .parseFail) :=
  ⟨rfl, by decide, C4_parse_all "1 2" (.TAG_Int 1) [' ', '2'] rfl (by decide)⟩

/-- C5: a successful compound parse at fuel `f + 1` goes through `kvSeq`
(or an empty body), and the resulting tag is exactly the Compound whose
entries are, in declaration order, the (key, value) pairs `kvSeq`
produced, each key a String tag whose string value becomes the name
attached to that entry's value tag. -/
theorem C5_compound_entries (f : Nat) (s r : Chars) (t : Tag)
    (h : STR_Compound (f + 1) s = .ok (t, r)) :
    ∃ s1 pairs,
      litCh lbrace s = some s1 ∧
      ((∃ s2, kvSeq f s1 = .ok (pairs, s2) ∧ litCh rbrace s2 = some r) ∨
        (pairs = [] ∧ kvSeq f s1 = .error .parseFail ∧ litCh rbrace s1 = some r)) ∧
      (∀ kv ∈ pairs, ∃ name, kv.1 = Tag.TAG_String name) ∧
      t = .TAG_Compound (pairs.map fun kv => (tagStrValue kv.1, kv.2)) := by
  unfold STR_Compound at h
  split at h
  · exact absurd h (by simp)
  · rename_i s1 hlb
    split at h
    · rename_i pairs s2 hseq
      split at h
      · exact absurd h (by simp)
      · rename_i s3 hrb
        have hok := Except.ok.inj h
        have ht : make_tag_compound pairs = t := by
          have := congrArg Prod.fst hok
          simpa using this
        have hs : s3 = r := by
          have := congrArg Prod.snd hok
          simpa using this
        refine ⟨s1, pairs, hlb, .inl ⟨s2, hseq, hs ▸ hrb⟩, ?_, by rw [← ht]; rfl⟩
        intro kv hkv
        obtain ⟨⟨v, hk, -⟩, -⟩ := (sound_all f).2.2.2.2.2.1 _ _ _ hseq kv hkv
        exact ⟨v, hk⟩
    · rename_i hseq
      split at h
      · exact absurd h (by simp)
      · rename_i s3 hrb
        have hok := Except.ok.inj h
        have ht : make_tag_compound [] = t := by
          have := congrArg Prod.fst hok
          simpa using this
        have hs : s3 = r := by
          have := congrArg Prod.snd hok
          simpa using this
        exact ⟨s1, [], hlb, .inr ⟨rfl, hseq, hs ▸ hrb⟩, by simp, by rw [← ht]; rfl⟩
    · exact absurd h (by simp)

theorem C5_compound_entries_witness :
    ∃ s1 pairs,
      litCh lbrace ("\x7ba:1,b:2\x7d".data) = some s1 ∧
      ((∃ s2, kvSeq 43 s1 = .ok (pairs, s2) ∧ litCh rbrace s2 = some []) ∨
        (pairs = [] ∧ kvSeq 43 s1 = .error .parseFail ∧ litCh rbrace s1 = some [])) ∧
      (∀ kv ∈ pairs, ∃ name, kv.1 = Tag.TAG_String name) ∧
      Tag.TAG_Compound [("a", Tag.TAG_Int 1), ("b", Tag.TAG_Int 2)] =
        .TAG_Compound (pairs.map fun kv => (tagStrValue kv.1, kv.2)) :=
  C5_compound_entries 43 "\x7ba:1,b:2\x7d".data []
    (.TAG_Compound [("a", .TAG_Int 1), ("b", .TAG_Int 2)]) rfl

/-- C6: a successful non-empty list parse yields exactly the parsed child
tags in order with the declared element type taken from the first element;
homogeneity is not enforced (mixed lists parse), and the five-word string
list parses to a List of 5 String tags with element type 8 (String). -/
theorem C6_list_elements :
    (∀ (f : Nat) (s r : Chars) (t : Tag), STR_List (f + 1) s = .ok (t, r) →
      ∃ s1 s2 v vs, litCh '[' s = some s1 ∧ tagElems f s1 = .ok (v :: vs, s2) ∧
        litCh ']' s2 = some r ∧ t = .TAG_List v.id (v :: vs)) ∧
    str2nbt "[this,is,a,string,list]" =
      .ok (.TAG_List 8 [.TAG_String "this", .TAG_String "is", .TAG_String "a",
        .TAG_String "string", .TAG_String "list"]) ∧
    str2nbt "[1,abc]" = .ok (.TAG_List 3 [.TAG_Int 1, .TAG_String "abc"]) := by
  refine ⟨?_, rfl, rfl⟩
  intro f s r t h
  unfold STR_List at h
  split at h
  · exact absurd h (by simp)
  · rename_i s1 hlb
    split at h
    · rename_i vals s2 hele
      split at h
      · exact absurd h (by simp)
      · rename_i s3 hrb
        split at h
        · rename_i t' hmk
          cases vals with
          | nil => exact absurd hmk (by simp [make_tag_list])
          | cons v vs =>
            have hok := Except.ok.inj h
            have ht : t' = t := by
              have := congrArg Prod.fst hok
              simpa using this
            have hs : s3 = r := by
              have := congrArg Prod.snd hok
              simpa using this
            have hmk2 : Tag.TAG_List v.id (v :: vs) = t' := by
              have := Except.ok.inj hmk
              simpa [make_tag_list] using this
            exact ⟨s1, s2, v, vs, hlb, hele, hs ▸ hrb, by rw [← ht, ← hmk2]⟩
        · exact absurd h (by simp)
    · rename_i hele
      split at h
      · exact absurd h (by simp)
      · split at h
        · rename_i t' hmk
          exact absurd hmk (by simp [make_tag_list])
        · exact absurd h (by simp)
    · exact absurd h (by simp)

/-- C7: typed-array elements may optionally repeat the array's own suffix
letter (case-insensitively) but no other numeric suffix; a foreign suffix is
a ParseError, and on success the matching typed integer array results. -/
theorem C7_array_suffixes :
    str2nbt "[I; 1,2,3,4]" = .ok (.TAG_Int_Array [1, 2, 3, 4]) ∧
    str2nbt "[B; 1,2,3,4]" = .ok (.TAG_Byte_Array [1, 2, 3, 4]) ∧
    str2nbt "[L; 1,2,3,4]" = .ok (.TAG_Long_Array [1, 2, 3, 4]) ∧
    str2nbt "[B; 1b,2B]" = .ok (.TAG_Byte_Array [1, 2]) ∧
    str2nbt "[I; 1i,2I]" = .ok (.TAG_Int_Array [1, 2]) ∧
    str2nbt "[L; 1l,2L]" = .ok (.TAG_Long_Array [1, 2]) ∧
    str2nbt "[I; 1b]" = .error .parseFail ∧
    str2nbt "[B; 1i]" = .error .parseFail ∧
    str2nbt "[L; 1s]" = .error .parseFail :=
  ⟨rfl, rfl, rfl, rfl, rfl, rfl, rfl, rfl, rfl⟩

/-- C8: a bare and a quoted string literal parse to equal String tags, and
the printer always emits a String tag's value wrapped in double quotes. -/
theorem C8_strings :
    str2nbt "hello" = .ok (.TAG_String "hello") ∧
    str2nbt "\"hello\"" = .ok (.TAG_String "hello") ∧
    (∀ v : String, nbt2str (.TAG_String v) = "\"" ++ v ++ "\"") := by
  refine ⟨rfl, rfl, ?_⟩
  intro v
  cases v
  rfl

/-- C9: `nbt2py` is total over the 12 tag variants and strips the type tags:
scalars map to raw values, arrays and lists to plain sequences, a compound
(with distinct names) to the name-to-value mapping; the worked example
flattens as stated. -/
theorem C9_toNative :
    (∀ es : List (String × Tag), (es.map Prod.fst).Nodup →
      nbt2py (.TAG_Compound es) = .dict (es.map fun e => (e.1, nbt2py e.2))) ∧
    (∀ (i : Nat) (ts : List Tag), nbt2py (.TAG_List i ts) = .list (ts.map nbt2py)) ∧
    (∀ v : Int, nbt2py (.TAG_Byte v) = .int v ∧ nbt2py (.TAG_Short v) = .int v ∧
      nbt2py (.TAG_Int v) = .int v ∧ nbt2py (.TAG_Long v) = .int v) ∧
    (∀ q : PyFloat, nbt2py (.TAG_Float q) = .float q ∧ nbt2py (.TAG_Double q) = .float q) ∧
    (∀ v : String, nbt2py (.TAG_String v) = .str v) ∧
    (∀ vs : List Int, nbt2py (.TAG_Byte_Array vs) = .bytes vs ∧
      nbt2py (.TAG_Int_Array vs) = .list (vs.map Py.int) ∧
      nbt2py (.TAG_Long_Array vs) = .list (vs.map Py.int)) ∧
    (str2nbt "\x7ba:1,b:[1,2,3]\x7d" =
      .ok (.TAG_Compound [("a", .TAG_Int 1),
        ("b", .TAG_List 3 [.TAG_Int 1, .TAG_Int 2, .TAG_Int 3])]) ∧
     nbt2py (.TAG_Compound [("a", .TAG_Int 1),
        ("b", .TAG_List 3 [.TAG_Int 1, .TAG_Int 2, .TAG_Int 3])]) =
      .dict [("a", .int 1), ("b", .list [.int 1, .int 2, .int 3])]) := by
  refine ⟨?_, ?_, fun v => ⟨rfl, rfl, rfl, rfl⟩, fun q => ⟨rfl, rfl⟩, fun v => rfl,
    fun vs => ⟨rfl, rfl, rfl⟩, rfl, rfl⟩
  · intro es hnd
    show Py.dict (pyDictOf es []) = _
    rw [pyDictOf_nodup es [] hnd (by intro p hp; simp at hp)]
    rfl
  · intro i ts
    show Py.list (pyListOf ts) = _
    rw [pyListOf_map]

/-- C10: a byte-array literal succeeds exactly when every element lies in
0..255 (the values are stored in a Python `bytearray`); out-of-range values
such as `-1` raise `ValueError` even though the numeric grammar accepts
signed integers. -/
theorem C10_bytearray_range :
    (∀ (f : Nat) (s : Chars) (vs : List Int) (r : Chars),
      matchNumList 'B' f s = some (vs, r) →
        (vs.all (fun v => 0 ≤ v && v < 256) = true →
          STR_NumArray 'B' f s = .ok (.TAG_Byte_Array vs, r)) ∧
        (vs.all (fun v => 0 ≤ v && v < 256) = false →
          STR_NumArray 'B' f s = .error (.hostErr "ValueError"))) ∧
    str2nbt "[B; -1]" = .error (.hostErr "ValueError") ∧
    str2nbt "[B; 256]" = .error (.hostErr "ValueError") ∧
    str2nbt "[B; 0,255]" = .ok (.TAG_Byte_Array [0, 255]) := by
  refine ⟨?_, rfl, rfl, rfl⟩
  intro f s vs r hm
  constructor <;> intro hall <;>
    simp [STR_NumArray, hm, make_tag_array, bytearrayOf, hall]

end Nbtutils
